import Mathlib

/-!
Verification of the Ceno zkVM core against its specification.

This file shallowly embeds the relevant parts of the repository:

* the `Ltu` gadget witness assignment
  (src/ceno_zkvm/src/instructions/riscv/config.rs, `LtuInput::assign`);
* the expression algebra: monomial form, canonical form and the comparison
  function (src/ceno_zkvm/src/expression/monomial.rs);
* the BaseFold encoding and codeword folding
  (src/mpcs/src/multilinear/basefold.rs);
* the mock prover error aggregation
  (src/ceno_zkvm/src/scheme/mock_prover.rs);
* the query-index derivation of the BaseFold verifier queries
  (src/mpcs/src/multilinear/basefold.rs, `query_phase`).

Machine integers are modelled as `Nat` (all the loops in scope stay far from
64-bit overflow), field elements as elements of an arbitrary commutative ring
or field, instantiated at small `ZMod` primes in concrete statements.
-/

namespace Ceno

/-! ## The `Ltu` gadget (src/ceno_zkvm/src/instructions/riscv/config.rs)

`LtuInput::assign` receives the byte limbs of the two operands (least
significant limb first) and fills the witness cells of `LtuConfig`.
We record exactly the values the Rust code writes with `set_val!`.
-/

/-- The scan loop of `LtuInput::assign`: iterate over the zipped, enumerated
limb pairs in reverse and stop at the first differing pair.
Input: the reversed enumerated list of limb pairs. -/
def findDiffAux : List (ℕ × ℕ × ℕ) → ℕ × Bool
  | [] => (0, false)
  | (i, l, r) :: rest => if l ≠ r then (i, true) else findDiffAux rest

/-- `for (i, (&lhs, &rhs)) in lhs.iter().zip(rhs).enumerate().rev() { if lhs != rhs { idx = i; flag = true; break } }` -/
def findDiff (lhs rhs : List ℕ) : ℕ × Bool :=
  findDiffAux (((lhs.zip rhs).enum.map (fun p => (p.1, p.2.1, p.2.2))).reverse)

/-- The witness values written by `LtuInput::assign` (one per `set_val!`),
together with the returned boolean. -/
structure LtuWitness (F : Type) where
  /-- the position `idx` selected by the scan loop -/
  idx : ℕ
  /-- the flag selected by the scan loop -/
  flag : Bool
  /-- value written to `config.indexes[idx]` -/
  indexesAtIdx : F
  /-- values written to `config.acc_indexes` (position `id` gets `flag` for
  `id ≤ idx` and zero otherwise) -/
  accIndexes : List F
  /-- value written to `config.lhs_ne_byte` -/
  lhsNeByte : F
  /-- value written to `config.rhs_ne_byte` -/
  rhsNeByte : F
  /-- value written to `config.byte_diff_inv` -/
  byteDiffInv : F
  /-- value written to `config.is_ltu` -/
  isLtuVal : F
  /-- the boolean returned by `assign` -/
  ret : Bool

variable {F : Type}

/-- Shallow embedding of `LtuInput::assign`.  Limbs are bytes, least
significant first; field values are embedded through the `Nat` cast
(`i64_to_ext` on a byte value). -/
def ltuAssign [Field F] (lhs rhs : List ℕ) : LtuWitness F :=
  let p := findDiff lhs rhs
  let idx := p.1
  let flag := p.2
  let flagF : F := if flag then 1 else 0
  let lhsNe : F := (lhs.getD idx 0 : ℕ)
  let rhsNe : F := (rhs.getD idx 0 : ℕ)
  { idx := idx
    flag := flag
    indexesAtIdx := flagF
    accIndexes := (List.range lhs.length).map (fun id => if id ≤ idx then flagF else 0)
    lhsNeByte := lhsNe
    rhsNeByte := rhsNe
    byteDiffInv := if flag then (lhsNe - rhsNe)⁻¹ else 1
    isLtuVal := if lhs.getD idx 0 < rhs.getD idx 0 then 1 else 0
    ret := decide (lhs.getD idx 0 < rhs.getD idx 0) }

/-- The multi-limb value of a little-endian base-256 limb list. -/
def limbsVal (l : List ℕ) : ℕ := l.foldr (fun d acc => d + 256 * acc) 0

theorem limbsVal_nil : limbsVal [] = 0 := rfl

theorem limbsVal_cons (d : ℕ) (l : List ℕ) :
    limbsVal (d :: l) = d + 256 * limbsVal l := rfl

theorem limbsVal_append_singleton (l : List ℕ) (a : ℕ) :
    limbsVal (l ++ [a]) = limbsVal l + a * 256 ^ l.length := by
  induction l with
  | nil => simp [limbsVal]
  | cons d t ih =>
    simp only [List.cons_append, limbsVal_cons, ih, List.length_cons]
    ring

theorem limbsVal_lt (l : List ℕ) (h : ∀ x ∈ l, x < 256) :
    limbsVal l < 256 ^ l.length := by
  induction l with
  | nil => simp [limbsVal]
  | cons d t ih =>
    have hd : d < 256 := h d (by simp)
    have ht : limbsVal t < 256 ^ t.length := ih (fun x hx => h x (by simp [hx]))
    have : d + 256 * limbsVal t < 256 * 256 ^ t.length := by omega
    simpa [limbsVal_cons, List.length_cons, pow_succ, mul_comm] using this

theorem findDiff_concat (l r : List ℕ) (a b : ℕ) (h : l.length = r.length) :
    findDiff (l ++ [a]) (r ++ [b]) =
      if a ≠ b then (l.length, true) else findDiff l r := by
  have hz : (l ++ [a]).zip (r ++ [b]) = l.zip r ++ [(a, b)] :=
    List.zip_append (by simpa using h)
  have hlen : (l.zip r).length = l.length := by
    simp [List.length_zip, h]
  unfold findDiff
  rw [hz, List.enum_append]
  simp only [List.map_append, List.reverse_append, hlen]
  by_cases hab : a = b
  · subst hab
    simp [findDiffAux]
  · simp [findDiffAux, hab]

theorem findDiff_fst_lt (lhs rhs : List ℕ) (hne : lhs ≠ []) :
    (findDiff lhs rhs).1 < lhs.length := by
  unfold findDiff
  generalize hE : ((lhs.zip rhs).enum.map (fun p => (p.1, p.2.1, p.2.2))).reverse = L
  have hbound : ∀ q ∈ L, q.1 < lhs.length := by
    intro q hq
    rw [← hE] at hq
    simp only [List.mem_reverse, List.mem_map] at hq
    obtain ⟨p, hp, hpq⟩ := hq
    have := List.fst_lt_of_mem_enum hp
    have hle : (lhs.zip rhs).length ≤ lhs.length := by
      simp [List.length_zip]
    subst hpq
    simpa using lt_of_lt_of_le this hle
  have hpos : 0 < lhs.length := by
    cases lhs with
    | nil => exact absurd rfl hne
    | cons x t => simp
  clear hE
  induction L with
  | nil => simpa [findDiffAux] using hpos
  | cons q t ih =>
    obtain ⟨i, l, r⟩ := q
    simp only [findDiffAux]
    by_cases hd : l = r
    · simp only [ne_eq, hd, not_true_eq_false, if_false]
      exact ih (fun q hq => hbound q (by simp [hq]))
    · simp only [ne_eq, hd, not_false_eq_true, if_true]
      exact hbound (i, l, r) (by simp)

theorem getD_append_length : ∀ (x : List ℕ) (c : ℕ), (x ++ [c]).getD x.length 0 = c := by
  intro x c
  induction x with
  | nil => rfl
  | cons h t ih => simp [List.getD_cons_succ, ih]

theorem findDiff_spec : ∀ (n : ℕ) (lhs rhs : List ℕ), lhs.length = n → rhs.length = n →
    ((findDiff lhs rhs).2 = true →
      lhs.getD (findDiff lhs rhs).1 0 ≠ rhs.getD (findDiff lhs rhs).1 0 ∧
      ∀ i, (findDiff lhs rhs).1 < i → i < lhs.length → lhs.getD i 0 = rhs.getD i 0) ∧
    ((findDiff lhs rhs).2 = false → lhs = rhs ∧ (findDiff lhs rhs).1 = 0) := by
  intro n
  induction n with
  | zero =>
    intro lhs rhs hl hr
    rw [List.length_eq_zero] at hl hr
    subst hl; subst hr
    exact ⟨fun h => by simp [findDiff, findDiffAux] at h, fun _ => ⟨rfl, rfl⟩⟩
  | succ m ih =>
    intro lhs rhs hl hr
    rcases List.eq_nil_or_concat lhs with hnil | ⟨l, a, hla⟩
    · subst hnil; simp at hl
    rcases List.eq_nil_or_concat rhs with hnil | ⟨r, b, hrb⟩
    · subst hnil; simp at hr
    rw [List.concat_eq_append] at hla hrb
    subst hla; subst hrb
    simp only [List.length_append, List.length_cons, List.length_nil] at hl hr
    have hlm : l.length = m := by omega
    have hrm : r.length = m := by omega
    have hfc := findDiff_concat l r a b (by omega)
    by_cases hab : a = b
    · subst hab
      rw [if_neg (by simp)] at hfc
      rw [hfc]
      obtain ⟨h1, h2⟩ := ih l r hlm hrm
      refine ⟨fun hf => ?_, fun hf => ?_⟩
      · obtain ⟨hne, hrest⟩ := h1 hf
        have hlne : l ≠ [] := by
          rintro rfl
          have hm : m = 0 := by simpa using hlm.symm
          have hr0 : r = [] := List.length_eq_zero.mp (by omega)
          subst hr0
          simp [findDiff, findDiffAux] at hf
        have hidx : (findDiff l r).1 < l.length := findDiff_fst_lt l r hlne
        refine ⟨?_, ?_⟩
        · rwa [List.getD_append _ _ _ _ hidx, List.getD_append _ _ _ _ (by omega)]
        · intro i hi1 hi2
          simp only [List.length_append, List.length_singleton] at hi2
          by_cases hcase : i < l.length
          · rw [List.getD_append _ _ _ _ hcase, List.getD_append _ _ _ _ (by omega)]
            exact hrest i hi1 hcase
          · have hil : i = l.length := by omega
            have hlr : l.length = r.length := by omega
            rw [hil, getD_append_length, hlr, getD_append_length]
      · obtain ⟨heq, hz⟩ := h2 hf
        exact ⟨by rw [heq], hz⟩
    · rw [if_pos (by simpa using hab)] at hfc
      rw [hfc]
      refine ⟨fun _ => ⟨?_, ?_⟩, fun hf => by simp at hf⟩
      · have hlr : l.length = r.length := by omega
        rw [getD_append_length, hlr, getD_append_length]
        exact hab
      · intro i hi1 hi2
        simp only [List.length_append, List.length_singleton] at hi2
        omega

theorem findDiff_lt_iff : ∀ (n : ℕ) (lhs rhs : List ℕ), lhs.length = n → rhs.length = n →
    (∀ x ∈ lhs, x < 256) → (∀ x ∈ rhs, x < 256) →
    (lhs.getD (findDiff lhs rhs).1 0 < rhs.getD (findDiff lhs rhs).1 0 ↔
      limbsVal lhs < limbsVal rhs) := by
  intro n
  induction n with
  | zero =>
    intro lhs rhs hl hr _ _
    rw [List.length_eq_zero] at hl hr
    subst hl; subst hr
    simp [findDiff, findDiffAux, limbsVal]
  | succ m ih =>
    intro lhs rhs hl hr hbl hbr
    rcases List.eq_nil_or_concat lhs with hnil | ⟨l, a, hla⟩
    · subst hnil; simp at hl
    rcases List.eq_nil_or_concat rhs with hnil | ⟨r, b, hrb⟩
    · subst hnil; simp at hr
    rw [List.concat_eq_append] at hla hrb
    subst hla; subst hrb
    simp only [List.length_append, List.length_cons, List.length_nil] at hl hr
    have hlm : l.length = m := by omega
    have hrm : r.length = m := by omega
    have hlr : l.length = r.length := by omega
    have hvl : limbsVal l < 256 ^ l.length :=
      limbsVal_lt l (fun x hx => hbl x (by simp [hx]))
    have hvr : limbsVal r < 256 ^ r.length :=
      limbsVal_lt r (fun x hx => hbr x (by simp [hx]))
    have hfc := findDiff_concat l r a b (by omega)
    rw [limbsVal_append_singleton, limbsVal_append_singleton]
    by_cases hab : a = b
    · subst hab
      rw [if_neg (by simp)] at hfc
      rw [hfc]
      rcases List.eq_nil_or_concat l with h0 | ⟨l2, c, hc⟩
      · subst h0
        have hm0 : m = 0 := by simpa using hlm.symm
        have hr0 : r = [] := List.length_eq_zero.mp (by omega)
        subst hr0
        simp [findDiff, findDiffAux, limbsVal]
      · have hlne : l ≠ [] := by rw [hc]; simp
        have hidx : (findDiff l r).1 < l.length := findDiff_fst_lt l r hlne
        rw [List.getD_append _ _ _ _ hidx, List.getD_append _ _ _ _ (by omega)]
        rw [ih l r hlm hrm (fun x hx => hbl x (by simp [hx]))
          (fun x hx => hbr x (by simp [hx]))]
        rw [hlr]
        omega
    · rw [if_pos (by simpa using hab)] at hfc
      rw [hfc]
      rw [getD_append_length, hlr, getD_append_length]
      constructor
      · intro hab2
        have h1 : limbsVal l + a * 256 ^ l.length < (a + 1) * 256 ^ l.length := by
          have := hvl; nlinarith [pow_pos (by norm_num : (0:ℕ) < 256) l.length]
        have h2 : (a + 1) * 256 ^ l.length ≤ b * 256 ^ l.length :=
          Nat.mul_le_mul_right _ (by omega)
        rw [hlr] at h1 h2
        omega
      · intro hsum
        by_contra hba
        have hba2 : b ≤ a := by omega
        have h1 : limbsVal r + b * 256 ^ r.length < (b + 1) * 256 ^ r.length := by
          have := hvr; nlinarith [pow_pos (by norm_num : (0:ℕ) < 256) r.length]
        have h2 : (b + 1) * 256 ^ r.length ≤ a * 256 ^ r.length := by
          have hne2 : b + 1 ≤ a := by
            rcases Nat.lt_or_ge b a with h | h
            · omega
            · exact absurd (by omega : a = b) hab
          exact Nat.mul_le_mul_right _ hne2
        omega

/-- Helper for witnesses: distinct bytes stay distinct in `ZMod 257`. -/
theorem zmod257_byte_inj (a b : ℕ) (ha : a < 256) (hb : b < 256)
    (h : (a : ZMod 257) = b) : a = b := by
  have h2 : (a : ZMod 257).val = (b : ZMod 257).val := by rw [h]
  rw [ZMod.val_natCast, ZMod.val_natCast] at h2
  omega

instance : Fact (Nat.Prime 257) := ⟨by norm_num⟩

/-- **C7.** `LtuInput::assign` scans from the most significant limb downward for
the first differing position `idx`, writes `indexes[idx] = flag`,
`acc_indexes[0..=idx] = flag`, `acc_indexes[idx+1..] = 0`, records the two
bytes at `idx` and, when they differ, the field inverse of their difference,
and returns `lhs[idx] < rhs[idx]`, which coincides with the unsigned
less-than of the two multi-limb values. -/
theorem ltu_assign_correct [Field F] (lhs rhs : List ℕ)
    (hinj : ∀ a b : ℕ, a < 256 → b < 256 → (a : F) = b → a = b)
    (hlen : lhs.length = rhs.length) (hne : lhs ≠ [])
    (hbl : ∀ x ∈ lhs, x < 256) (hbr : ∀ x ∈ rhs, x < 256) :
    ((ltuAssign (F := F) lhs rhs).flag = true →
      (ltuAssign (F := F) lhs rhs).idx < lhs.length ∧
      lhs.getD (ltuAssign (F := F) lhs rhs).idx 0 ≠
        rhs.getD (ltuAssign (F := F) lhs rhs).idx 0 ∧
      ∀ i, (ltuAssign (F := F) lhs rhs).idx < i → i < lhs.length →
        lhs.getD i 0 = rhs.getD i 0) ∧
    ((ltuAssign (F := F) lhs rhs).flag = false → lhs = rhs ∧
      (ltuAssign (F := F) lhs rhs).idx = 0) ∧
    (ltuAssign (F := F) lhs rhs).indexesAtIdx =
      (if (ltuAssign (F := F) lhs rhs).flag then 1 else 0) ∧
    (ltuAssign (F := F) lhs rhs).accIndexes =
      (List.range lhs.length).map (fun id =>
        if id ≤ (ltuAssign (F := F) lhs rhs).idx then
          (if (ltuAssign (F := F) lhs rhs).flag then (1 : F) else 0) else 0) ∧
    (ltuAssign (F := F) lhs rhs).lhsNeByte =
      ((lhs.getD (ltuAssign (F := F) lhs rhs).idx 0 : ℕ) : F) ∧
    (ltuAssign (F := F) lhs rhs).rhsNeByte =
      ((rhs.getD (ltuAssign (F := F) lhs rhs).idx 0 : ℕ) : F) ∧
    ((ltuAssign (F := F) lhs rhs).flag = true →
      ((ltuAssign (F := F) lhs rhs).lhsNeByte -
        (ltuAssign (F := F) lhs rhs).rhsNeByte) *
        (ltuAssign (F := F) lhs rhs).byteDiffInv = 1) ∧
    (ltuAssign (F := F) lhs rhs).ret =
      decide (lhs.getD (ltuAssign (F := F) lhs rhs).idx 0 <
        rhs.getD (ltuAssign (F := F) lhs rhs).idx 0) ∧
    ((ltuAssign (F := F) lhs rhs).ret = true ↔ limbsVal lhs < limbsVal rhs) := by
  obtain ⟨hspec1, hspec2⟩ := findDiff_spec lhs.length lhs rhs rfl hlen.symm
  have hidx_lt : lhs ≠ [] → (findDiff lhs rhs).1 < lhs.length := findDiff_fst_lt lhs rhs
  have hiff := findDiff_lt_iff lhs.length lhs rhs rfl hlen.symm hbl hbr
  refine ⟨?_, ?_, rfl, rfl, rfl, rfl, ?_, rfl, ?_⟩
  · intro hf
    obtain ⟨h1, h2⟩ := hspec1 hf
    exact ⟨hidx_lt hne, h1, h2⟩
  · exact hspec2
  · intro hf
    obtain ⟨h1, _⟩ := hspec1 hf
    have hidx := hidx_lt hne
    have hla : lhs.getD (findDiff lhs rhs).1 0 < 256 := by
      rw [List.getD_eq_getElem lhs 0 hidx]
      exact hbl _ (List.getElem_mem hidx)
    have hrb2 : rhs.getD (findDiff lhs rhs).1 0 < 256 := by
      rw [List.getD_eq_getElem rhs 0 (show (findDiff lhs rhs).1 < rhs.length by omega)]
      exact hbr _ (List.getElem_mem _)
    have hdiff : ((lhs.getD (findDiff lhs rhs).1 0 : ℕ) : F) ≠
        ((rhs.getD (findDiff lhs rhs).1 0 : ℕ) : F) := by
      intro hcast
      exact h1 (hinj _ _ hla hrb2 hcast)
    have hf2 : (findDiff lhs rhs).2 = true := hf
    simp only [ltuAssign]
    rw [if_pos hf2]
    exact mul_inv_cancel₀ (sub_ne_zero.mpr hdiff)
  · simp only [ltuAssign, decide_eq_true_eq]
    exact hiff

/-- Witness for `ltu_assign_correct` at a concrete input (`F = ZMod 257`,
`lhs = [1, 2]`, `rhs = [3, 2]`). -/
theorem ltu_assign_correct_witness :
    ((ltuAssign (F := ZMod 257) [1, 2] [3, 2]).flag = true →
      (ltuAssign (F := ZMod 257) [1, 2] [3, 2]).idx < ([1, 2] : List ℕ).length ∧
      ([1, 2] : List ℕ).getD (ltuAssign (F := ZMod 257) [1, 2] [3, 2]).idx 0 ≠
        ([3, 2] : List ℕ).getD (ltuAssign (F := ZMod 257) [1, 2] [3, 2]).idx 0 ∧
      ∀ i, (ltuAssign (F := ZMod 257) [1, 2] [3, 2]).idx < i →
        i < ([1, 2] : List ℕ).length →
        ([1, 2] : List ℕ).getD i 0 = ([3, 2] : List ℕ).getD i 0) ∧
    ((ltuAssign (F := ZMod 257) [1, 2] [3, 2]).flag = false →
      ([1, 2] : List ℕ) = [3, 2] ∧
      (ltuAssign (F := ZMod 257) [1, 2] [3, 2]).idx = 0) ∧
    (ltuAssign (F := ZMod 257) [1, 2] [3, 2]).indexesAtIdx =
      (if (ltuAssign (F := ZMod 257) [1, 2] [3, 2]).flag then 1 else 0) ∧
    (ltuAssign (F := ZMod 257) [1, 2] [3, 2]).accIndexes =
      (List.range ([1, 2] : List ℕ).length).map (fun id =>
        if id ≤ (ltuAssign (F := ZMod 257) [1, 2] [3, 2]).idx then
          (if (ltuAssign (F := ZMod 257) [1, 2] [3, 2]).flag then (1 : ZMod 257)
            else 0) else 0) ∧
    (ltuAssign (F := ZMod 257) [1, 2] [3, 2]).lhsNeByte =
      ((([1, 2] : List ℕ).getD (ltuAssign (F := ZMod 257) [1, 2] [3, 2]).idx 0 : ℕ) :
        ZMod 257) ∧
    (ltuAssign (F := ZMod 257) [1, 2] [3, 2]).rhsNeByte =
      ((([3, 2] : List ℕ).getD (ltuAssign (F := ZMod 257) [1, 2] [3, 2]).idx 0 : ℕ) :
        ZMod 257) ∧
    ((ltuAssign (F := ZMod 257) [1, 2] [3, 2]).flag = true →
      ((ltuAssign (F := ZMod 257) [1, 2] [3, 2]).lhsNeByte -
        (ltuAssign (F := ZMod 257) [1, 2] [3, 2]).rhsNeByte) *
        (ltuAssign (F := ZMod 257) [1, 2] [3, 2]).byteDiffInv = 1) ∧
    (ltuAssign (F := ZMod 257) [1, 2] [3, 2]).ret =
      decide (([1, 2] : List ℕ).getD (ltuAssign (F := ZMod 257) [1, 2] [3, 2]).idx 0 <
        ([3, 2] : List ℕ).getD (ltuAssign (F := ZMod 257) [1, 2] [3, 2]).idx 0) ∧
    ((ltuAssign (F := ZMod 257) [1, 2] [3, 2]).ret = true ↔
      limbsVal [1, 2] < limbsVal [3, 2]) :=
  ltu_assign_correct [1, 2] [3, 2] zmod257_byte_inj (by decide) (by decide)
    (by decide) (by decide)

theorem zip_self_eq : ∀ (l : List ℕ) (p : ℕ × ℕ), p ∈ l.zip l → p.1 = p.2 := by
  intro l
  induction l with
  | nil => simp
  | cons x t ih =>
    intro p hp
    simp only [List.zip_cons_cons, List.mem_cons] at hp
    rcases hp with h | h
    · rw [h]
    · exact ih p h

/-- **C10.** On equal operands `LtuInput::assign` selects `idx = 0` with
`flag = false`, writes zero to `indexes[0]` and to every `acc_indexes` entry,
records limb 0 as both differing bytes, writes `1` (not an inverse) as
`byte_diff_inv`, writes zero as `is_ltu` and returns `false`. -/
theorem ltu_assign_equal_operands [Field F] (lhs : List ℕ) (hne : lhs ≠ []) :
    (ltuAssign (F := F) lhs lhs).idx = 0 ∧
    (ltuAssign (F := F) lhs lhs).flag = false ∧
    (ltuAssign (F := F) lhs lhs).indexesAtIdx = 0 ∧
    (ltuAssign (F := F) lhs lhs).accIndexes =
      (List.range lhs.length).map (fun _ => (0 : F)) ∧
    (ltuAssign (F := F) lhs lhs).lhsNeByte = ((lhs.getD 0 0 : ℕ) : F) ∧
    (ltuAssign (F := F) lhs lhs).rhsNeByte = ((lhs.getD 0 0 : ℕ) : F) ∧
    (ltuAssign (F := F) lhs lhs).byteDiffInv = 1 ∧
    (ltuAssign (F := F) lhs lhs).isLtuVal = 0 ∧
    (ltuAssign (F := F) lhs lhs).ret = false := by
  have hfd : findDiff lhs lhs = (0, false) := by
    unfold findDiff
    generalize hE : ((lhs.zip lhs).enum.map (fun p => (p.1, p.2.1, p.2.2))).reverse = L
    have hall : ∀ q ∈ L, q.2.1 = q.2.2 := by
      intro q hq
      rw [← hE] at hq
      simp only [List.mem_reverse, List.mem_map] at hq
      obtain ⟨p, hp, hpq⟩ := hq
      have hmem : p.2 ∈ lhs.zip lhs :=
        List.getElem?_mem (List.mem_enum_iff_getElem?.mp hp)
      have hzip : p.2.1 = p.2.2 := zip_self_eq lhs p.2 hmem
      subst hpq
      exact hzip
    clear hE
    induction L with
    | nil => rfl
    | cons q t iht =>
      obtain ⟨i, l, r⟩ := q
      have hq : l = r := hall (i, l, r) (by simp)
      simp only [findDiffAux, hq, ne_eq, not_true_eq_false, if_false]
      exact iht (fun q hq2 => hall q (by simp [hq2]))
  refine ⟨?_, ?_, ?_, ?_, ?_, ?_, ?_, ?_, ?_⟩ <;>
    simp [ltuAssign, hfd, List.getD]

/-- Witness for `ltu_assign_equal_operands` at `F = ZMod 257`, `lhs = [7, 9]`. -/
theorem ltu_assign_equal_operands_witness :
    (ltuAssign (F := ZMod 257) [7, 9] [7, 9]).idx = 0 ∧
    (ltuAssign (F := ZMod 257) [7, 9] [7, 9]).flag = false ∧
    (ltuAssign (F := ZMod 257) [7, 9] [7, 9]).indexesAtIdx = 0 ∧
    (ltuAssign (F := ZMod 257) [7, 9] [7, 9]).accIndexes =
      (List.range ([7, 9] : List ℕ).length).map (fun _ => (0 : ZMod 257)) ∧
    (ltuAssign (F := ZMod 257) [7, 9] [7, 9]).lhsNeByte =
      ((([7, 9] : List ℕ).getD 0 0 : ℕ) : ZMod 257) ∧
    (ltuAssign (F := ZMod 257) [7, 9] [7, 9]).rhsNeByte =
      ((([7, 9] : List ℕ).getD 0 0 : ℕ) : ZMod 257) ∧
    (ltuAssign (F := ZMod 257) [7, 9] [7, 9]).byteDiffInv = 1 ∧
    (ltuAssign (F := ZMod 257) [7, 9] [7, 9]).isLtuVal = 0 ∧
    (ltuAssign (F := ZMod 257) [7, 9] [7, 9]).ret = false :=
  ltu_assign_equal_operands [7, 9] (by decide)

/-! ## Expression algebra (src/ceno_zkvm/src/expression/monomial.rs)

`Expression<E>` is generic over an extension field `E` with base field
`E::BaseField`; we embed it generically over a base-field type `F` and an
extension type `E`.  The comparison function only consumes field values
through `to_canonical_u64` (base field) and `as_bases` followed by
`to_canonical_u64` (extension field); these are supplied as the parameters
`fc : F → ℕ` and `eb : E → List ℕ`. -/

/-- The `Expression<E>` tree.  `Fixed`/`WitIn` carry column indices,
`Challenge` carries `(challenge_id, power, scalar, offset)`. -/
inductive Expr (F E : Type) where
  | Constant (c : F)
  | Fixed (i : ℕ)
  | WitIn (i : ℕ)
  | Challenge (id : ℕ) (pow : ℕ) (scalar offset : E)
  | Sum (a b : Expr F E)
  | Product (a b : Expr F E)
  | ScaledSum (x a b : Expr F E)
  deriving DecidableEq

/-- `Ord::cmp` on Rust integers (`u16`, `u32`, `usize`, `u64`). -/
def ncmp (a b : ℕ) : Ordering :=
  if a < b then .lt else if a = b then .eq else .gt

/-- `Iterator::cmp`: lexicographic comparison of integer sequences. -/
def lcmp : List ℕ → List ℕ → Ordering
  | [], [] => .eq
  | [], _ :: _ => .lt
  | _ :: _, [] => .gt
  | a :: l1, b :: l2 =>
    match ncmp a b with
    | .eq => lcmp l1 l2
    | o => o

/-- The `if cmp == Equal { tiebreak } else { cmp }` pattern of the source. -/
def othen : Ordering → Ordering → Ordering
  | .eq, o => o
  | o, _ => o

variable {F E : Type}

/-- `impl Ord for Expression` (`Expression::cmp` together with its helpers
`cmp_field` and `cmp_ext`).  The final seven arms are the catch-all arms of
the Rust `match`, in source order. -/
def cmp (fc : F → ℕ) (eb : E → List ℕ) : Expr F E → Expr F E → Ordering
  | .Fixed a, .Fixed b => ncmp a b
  | .WitIn a, .WitIn b => ncmp a b
  | .Constant a, .Constant b => ncmp (fc a) (fc b)
  | .Challenge a b c d, .Challenge e f g h =>
      othen (ncmp a e) (othen (ncmp b f) (othen (lcmp (eb c) (eb g)) (lcmp (eb d) (eb h))))
  | .Sum a b, .Sum c d => othen (cmp fc eb a c) (cmp fc eb b d)
  | .Product a b, .Product c d => othen (cmp fc eb a c) (cmp fc eb b d)
  | .ScaledSum x a b, .ScaledSum y c d =>
      othen (cmp fc eb x y) (othen (cmp fc eb a c) (cmp fc eb b d))
  | .Fixed _, _ => .lt
  | .WitIn _, _ => .lt
  | .Constant _, _ => .lt
  | .Challenge _ _ _ _, _ => .lt
  | .Sum _ _, _ => .lt
  | .Product _ _, _ => .lt
  | .ScaledSum _ _ _, _ => .lt

/-- Modelled from the spec: the evaluation of an expression under leaf
assignments (the evaluator `eval_by_expr_with_fixed` lives in
src/ceno_zkvm/src/scheme/utils.rs, which is not among the sources; §3 of the
spec defines each variant's meaning, in particular
`Challenge(id,pow,scalar,offset) = scalar·ch[id]^pow + offset` and
`ScaledSum(x,a,b) = x·a + b`).  `φ` embeds the base field into the
extension. -/
def evalE [CommRing F] [CommRing E] (φ : F →+* E) (fixed wit chal : ℕ → E) : Expr F E → E
  | .Constant c => φ c
  | .Fixed i => fixed i
  | .WitIn i => wit i
  | .Challenge id pow scalar offset => scalar * (chal id) ^ pow + offset
  | .Sum a b => evalE φ fixed wit chal a + evalE φ fixed wit chal b
  | .Product a b => evalE φ fixed wit chal a * evalE φ fixed wit chal b
  | .ScaledSum x a b =>
      evalE φ fixed wit chal x * evalE φ fixed wit chal a + evalE φ fixed wit chal b

/-- Modelled from the spec: the `+` operator on expressions
(src/ceno_zkvm/src/expression.rs is not among the sources).  §4.1 prescribes
that coalescing terms adds their coefficients, and coefficients arising in
`to_monomial_form` are constants, so constants fold; any other sum is a
`Sum` node. -/
def exprAdd [Add F] : Expr F E → Expr F E → Expr F E
  | .Constant a, .Constant b => .Constant (a + b)
  | a, b => .Sum a b

/-- Modelled from the spec: the `*` operator on expressions
(src/ceno_zkvm/src/expression.rs is not among the sources).  §4.1 prescribes
that distributing a product multiplies coefficients, and coefficients are
constants, so constants fold; any other product is a `Product` node. -/
def exprMul [Mul F] : Expr F E → Expr F E → Expr F E
  | .Constant a, .Constant b => .Constant (a * b)
  | a, b => .Product a b

/-- A monomial `coeff · ∏ vars` (the `Term` struct of the source). -/
structure Term (F E : Type) where
  coeff : Expr F E
  vars : List (Expr F E)
  deriving DecidableEq

variable [CommRing F]

/-- `Expression::distribute`. -/
def distribute : Expr F E → List (Term F E)
  | .Constant c => [⟨.Constant c, []⟩]
  | .Fixed i => [⟨.Constant 1, [.Fixed i]⟩]
  | .WitIn i => [⟨.Constant 1, [.WitIn i]⟩]
  | .Challenge a b c d => [⟨.Constant 1, [.Challenge a b c d]⟩]
  | .Sum a b => distribute a ++ distribute b
  | .Product a b =>
      (distribute a).flatMap (fun ta =>
        (distribute b).map (fun tb =>
          ⟨exprMul ta.coeff tb.coeff, ta.vars ++ tb.vars⟩))
  | .ScaledSum x a b =>
      distribute b ++
        (distribute x).flatMap (fun tx =>
          (distribute a).map (fun ta =>
            ⟨exprMul tx.coeff ta.coeff, tx.vars ++ ta.vars⟩))

/-- `term.vars.sort()`: Rust's stable sort under the expression comparison.
(For the slice lengths arising here Rust's sort literally is an insertion
sort, and for a comparator satisfying the `Ord` contract every stable sort
agrees with insertion sort.) -/
def sortVars (fc : F → ℕ) (eb : E → List ℕ) (t : Term F E) : Term F E :=
  { t with vars := t.vars.insertionSort (fun a b => cmp fc eb a b ≠ .gt) }

/-- The body of `Expression::combine`'s loop: merge a term into the
accumulated list, adding coefficients on the first entry with the same
variable list, else pushing it at the end. -/
def insertTerm [DecidableEq F] [DecidableEq E] :
    List (Term F E) → Term F E → List (Term F E)
  | [], t => [t]
  | r :: rs, t =>
      if r.vars = t.vars then ⟨exprAdd r.coeff t.coeff, r.vars⟩ :: rs
      else r :: insertTerm rs t

/-- `Expression::combine`. -/
def combine [DecidableEq F] [DecidableEq E] (fc : F → ℕ) (eb : E → List ℕ)
    (ts : List (Term F E)) : List (Term F E) :=
  ts.foldl (fun res t => insertTerm res (sortVars fc eb t)) []

/-- `Expression::sum_terms`. -/
def sumTerms (ts : List (Term F E)) : Expr F E :=
  match ts.map (fun t => t.vars.foldl .Product t.coeff) with
  | [] => .Constant 0
  | x :: xs => xs.foldl .Sum x

/-- `Expression::to_monomial_form_inner`. -/
def toMonomialForm [DecidableEq F] [DecidableEq E] (fc : F → ℕ)
    (eb : E → List ℕ) (e : Expr F E) : Expr F E :=
  sumTerms (combine fc eb (distribute e))

/-- `Expression::to_canonical_inner` (with `canonical_pair` inlined:
`if a <= b { (a, b) } else { (b, a) }`, where `a <= b` means
`cmp(a, b) ≠ Greater`). -/
def toCanonical [DecidableEq F] [DecidableEq E] (fc : F → ℕ) (eb : E → List ℕ) :
    Expr F E → Expr F E
  | .Constant c => .Constant c
  | .Fixed i => .Fixed i
  | .WitIn i => .WitIn i
  | .Challenge a b c d => .Challenge a b c d
  | .Sum a b =>
      let a2 := toCanonical fc eb a
      let b2 := toCanonical fc eb b
      if cmp fc eb a2 b2 ≠ .gt then .Sum a2 b2 else .Sum b2 a2
  | .Product a b =>
      let a2 := toCanonical fc eb a
      let b2 := toCanonical fc eb b
      if cmp fc eb a2 b2 ≠ .gt then .Product a2 b2 else .Product b2 a2
  | .ScaledSum x a b =>
      .ScaledSum (toCanonical fc eb x) (toCanonical fc eb a) (toCanonical fc eb b)

/-! ### Ordering lemmas -/

theorem ncmp_gt_lt {a b : ℕ} (h : ncmp a b = .gt) : ncmp b a = .lt := by
  by_cases h1 : a < b
  · simp [ncmp, h1] at h
  · by_cases h2 : a = b
    · simp [ncmp, h1, h2] at h
    · have h3 : b < a := by omega
      simp [ncmp, h3]

theorem ncmp_eq_iff {a b : ℕ} : ncmp a b = .eq ↔ a = b := by
  constructor
  · intro h
    by_cases h1 : a < b
    · simp [ncmp, h1] at h
    · by_cases h2 : a = b
      · exact h2
      · simp [ncmp, h1, h2] at h
  · rintro rfl
    simp [ncmp]

/-- The conjunction of properties of a pair of opposite comparisons that
survives under lexicographic combination. -/
def FlipOrd (o o2 : Ordering) : Prop :=
  (o = .gt → o2 = .lt) ∧ (o = .eq → o2 = .eq)

theorem flip_ncmp (a b : ℕ) : FlipOrd (ncmp a b) (ncmp b a) := by
  refine ⟨ncmp_gt_lt, fun h => ?_⟩
  rw [ncmp_eq_iff] at h ⊢
  omega

theorem flip_lcmp : ∀ (x y : List ℕ), FlipOrd (lcmp x y) (lcmp y x) := by
  intro x
  induction x with
  | nil =>
    intro y
    cases y with
    | nil => exact ⟨fun h => by simp [lcmp] at h, fun _ => rfl⟩
    | cons b l2 => exact ⟨fun h => by simp [lcmp] at h, fun h => by simp [lcmp] at h⟩
  | cons a l1 ih =>
    intro y
    cases y with
    | nil => exact ⟨fun _ => rfl, fun h => by simp [lcmp] at h⟩
    | cons b l2 =>
      obtain ⟨ihg, ihe⟩ := ih l2
      rcases hc : ncmp a b with _ | _ | _
      · refine ⟨fun h => ?_, fun h => ?_⟩ <;> simp [lcmp, hc] at h
      · have hba : ncmp b a = .eq := (flip_ncmp a b).2 hc
        refine ⟨fun h => ?_, fun h => ?_⟩
        · simp only [lcmp, hc] at h
          simp only [lcmp, hba]
          exact ihg h
        · simp only [lcmp, hc] at h
          simp only [lcmp, hba]
          exact ihe h
      · have hba : ncmp b a = .lt := ncmp_gt_lt hc
        refine ⟨fun _ => ?_, fun h => ?_⟩
        · simp [lcmp, hba]
        · simp [lcmp, hc] at h

theorem othen_eq_gt {a b : Ordering} :
    othen a b = .gt ↔ (a = .gt ∨ (a = .eq ∧ b = .gt)) := by
  cases a <;> simp [othen]

theorem othen_eq_eq {a b : Ordering} :
    othen a b = .eq ↔ (a = .eq ∧ b = .eq) := by
  cases a <;> simp [othen]

theorem flip_othen {o1 o2 p1 p2 : Ordering} (h1 : FlipOrd o1 p1)
    (h2 : FlipOrd o2 p2) : FlipOrd (othen o1 o2) (othen p1 p2) := by
  obtain ⟨hg1, he1⟩ := h1
  obtain ⟨hg2, he2⟩ := h2
  constructor
  · intro h
    rcases othen_eq_gt.mp h with hh | ⟨hh1, hh2⟩
    · rw [hg1 hh]; rfl
    · rw [he1 hh1, hg2 hh2]; rfl
  · intro h
    obtain ⟨hh1, hh2⟩ := othen_eq_eq.mp h
    rw [he1 hh1, he2 hh2]; rfl

theorem cmp_flip (fc : F → ℕ) (eb : E → List ℕ) :
    ∀ (a b : Expr F E), FlipOrd (cmp fc eb a b) (cmp fc eb b a) := by
  intro a
  induction a with
  | Constant c =>
    intro b
    cases b <;>
      first
      | exact flip_ncmp _ _
      | exact ⟨fun h => Ordering.noConfusion h, fun h => Ordering.noConfusion h⟩
  | Fixed i =>
    intro b
    cases b <;>
      first
      | exact flip_ncmp _ _
      | exact ⟨fun h => Ordering.noConfusion h, fun h => Ordering.noConfusion h⟩
  | WitIn i =>
    intro b
    cases b <;>
      first
      | exact flip_ncmp _ _
      | exact ⟨fun h => Ordering.noConfusion h, fun h => Ordering.noConfusion h⟩
  | Challenge a1 b1 c1 d1 =>
    intro b
    cases b <;>
      first
      | exact flip_othen (flip_ncmp _ _) (flip_othen (flip_ncmp _ _)
          (flip_othen (flip_lcmp _ _) (flip_lcmp _ _)))
      | exact ⟨fun h => Ordering.noConfusion h, fun h => Ordering.noConfusion h⟩
  | Sum x y ihx ihy =>
    intro b
    cases b <;>
      first
      | exact flip_othen (ihx _) (ihy _)
      | exact ⟨fun h => Ordering.noConfusion h, fun h => Ordering.noConfusion h⟩
  | Product x y ihx ihy =>
    intro b
    cases b <;>
      first
      | exact flip_othen (ihx _) (ihy _)
      | exact ⟨fun h => Ordering.noConfusion h, fun h => Ordering.noConfusion h⟩
  | ScaledSum x y z ihx ihy ihz =>
    intro b
    cases b <;>
      first
      | exact flip_othen (ihx _) (flip_othen (ihy _) (ihz _))
      | exact ⟨fun h => Ordering.noConfusion h, fun h => Ordering.noConfusion h⟩

theorem cmp_gt_lt (fc : F → ℕ) (eb : E → List ℕ) {a b : Expr F E}
    (h : cmp fc eb a b = .gt) : cmp fc eb b a = .lt :=
  (cmp_flip fc eb a b).1 h

/-! ### C4: the comparison is not antisymmetric across variants -/

/-- Concrete canonical-integer map for `ZMod 97` (playing `to_canonical_u64`). -/
def valF (c : ZMod 97) : ℕ := c.val

/-- Concrete base decomposition for `ZMod 97` viewed as a (degenerate)
extension of itself (playing `as_bases` + `to_canonical_u64`). -/
def basesE (e : ZMod 97) : List ℕ := [e.val]

/-- **C4.** The comparison function is not a total order: by the catch-all
arms of `Expression::cmp`, every cross-variant comparison returns `Less`, so
for `a = WitIn(0)` and `b = Fixed(0)` both `cmp(a, b)` and `cmp(b, a)` are
`Less`, although the claimed tag order `Fixed < WitIn` demands
`cmp(WitIn(0), Fixed(0)) = Greater`. -/
theorem cmp_cross_variant_both_less :
    cmp valF basesE (Expr.WitIn 0) (Expr.Fixed 0) = Ordering.lt ∧
    cmp valF basesE (Expr.Fixed 0) (Expr.WitIn 0) = Ordering.lt :=
  ⟨rfl, rfl⟩

/-! ### C3: the monomial form preserves evaluation -/

variable [CommRing E] (φ : F →+* E) (fixed wit chal : ℕ → E)

/-- The value of a monomial `coeff · ∏ vars`. -/
def evalTerm (t : Term F E) : E :=
  evalE φ fixed wit chal t.coeff * (t.vars.map (evalE φ fixed wit chal)).prod

/-- The value of a sum of monomials. -/
def evalTerms (ts : List (Term F E)) : E :=
  (ts.map (evalTerm φ fixed wit chal)).sum

theorem evalE_exprAdd (a b : Expr F E) :
    evalE φ fixed wit chal (exprAdd a b) =
      evalE φ fixed wit chal a + evalE φ fixed wit chal b := by
  cases a <;> cases b <;> simp [exprAdd, evalE, map_add]

theorem evalE_exprMul (a b : Expr F E) :
    evalE φ fixed wit chal (exprMul a b) =
      evalE φ fixed wit chal a * evalE φ fixed wit chal b := by
  cases a <;> cases b <;> simp [exprMul, evalE, map_mul]

theorem evalTerms_nil : evalTerms φ fixed wit chal ([] : List (Term F E)) = 0 := rfl

theorem evalTerms_cons (t : Term F E) (ts : List (Term F E)) :
    evalTerms φ fixed wit chal (t :: ts) =
      evalTerm φ fixed wit chal t + evalTerms φ fixed wit chal ts := by
  simp [evalTerms]

theorem evalTerms_append (xs ys : List (Term F E)) :
    evalTerms φ fixed wit chal (xs ++ ys) =
      evalTerms φ fixed wit chal xs + evalTerms φ fixed wit chal ys := by
  simp [evalTerms]

theorem evalTerm_mulT (ta tb : Term F E) :
    evalTerm φ fixed wit chal ⟨exprMul ta.coeff tb.coeff, ta.vars ++ tb.vars⟩ =
      evalTerm φ fixed wit chal ta * evalTerm φ fixed wit chal tb := by
  simp only [evalTerm, evalE_exprMul, List.map_append, List.prod_append]
  ring

theorem evalTerms_map_mul (ta : Term F E) (B : List (Term F E)) :
    evalTerms φ fixed wit chal (B.map (fun tb =>
        ⟨exprMul ta.coeff tb.coeff, ta.vars ++ tb.vars⟩)) =
      evalTerm φ fixed wit chal ta * evalTerms φ fixed wit chal B := by
  induction B with
  | nil => simp [evalTerms]
  | cons tb B ih =>
    simp only [List.map_cons, evalTerms_cons, ih, evalTerm_mulT]
    ring

theorem evalTerms_cross (A B : List (Term F E)) :
    evalTerms φ fixed wit chal (A.flatMap (fun ta => B.map (fun tb =>
        ⟨exprMul ta.coeff tb.coeff, ta.vars ++ tb.vars⟩))) =
      evalTerms φ fixed wit chal A * evalTerms φ fixed wit chal B := by
  induction A with
  | nil => simp [evalTerms]
  | cons ta A ih =>
    simp only [List.flatMap_cons, evalTerms_append, ih, evalTerms_cons,
      evalTerms_map_mul]
    ring

theorem distribute_eval (e : Expr F E) :
    evalTerms φ fixed wit chal (distribute e) = evalE φ fixed wit chal e := by
  induction e with
  | Constant c => simp [distribute, evalTerms, evalTerm, evalE]
  | Fixed i => simp [distribute, evalTerms, evalTerm, evalE]
  | WitIn i => simp [distribute, evalTerms, evalTerm, evalE]
  | Challenge a b c d => simp [distribute, evalTerms, evalTerm, evalE]
  | Sum a b iha ihb => simp [distribute, evalTerms_append, iha, ihb, evalE]
  | Product a b iha ihb => simp [distribute, evalTerms_cross, iha, ihb, evalE]
  | ScaledSum x a b ihx iha ihb =>
    simp only [distribute, evalTerms_append, evalTerms_cross, ihx, iha, ihb, evalE]
    ring

theorem evalTerm_sortVars [DecidableEq F] [DecidableEq E] (fc : F → ℕ)
    (eb : E → List ℕ) (t : Term F E) :
    evalTerm φ fixed wit chal (sortVars fc eb t) = evalTerm φ fixed wit chal t := by
  have hperm : (List.insertionSort (fun a b => cmp fc eb a b ≠ Ordering.gt)
      t.vars).Perm t.vars := List.perm_insertionSort _ _
  simp only [evalTerm, sortVars]
  rw [List.Perm.prod_eq (hperm.map _)]

theorem insertTerm_eval [DecidableEq F] [DecidableEq E]
    (res : List (Term F E)) (t : Term F E) :
    evalTerms φ fixed wit chal (insertTerm res t) =
      evalTerms φ fixed wit chal res + evalTerm φ fixed wit chal t := by
  induction res with
  | nil => simp [insertTerm, evalTerms]
  | cons r rs ih =>
    by_cases h : r.vars = t.vars
    · rw [insertTerm, if_pos h, evalTerms_cons, evalTerms_cons]
      simp only [evalTerm, evalE_exprAdd, h]
      ring
    · rw [insertTerm, if_neg h, evalTerms_cons, evalTerms_cons, ih]
      ring

theorem combine_eval [DecidableEq F] [DecidableEq E] (fc : F → ℕ)
    (eb : E → List ℕ) (ts : List (Term F E)) :
    evalTerms φ fixed wit chal (combine fc eb ts) =
      evalTerms φ fixed wit chal ts := by
  suffices h : ∀ init : List (Term F E),
      evalTerms φ fixed wit chal
          (ts.foldl (fun res t => insertTerm res (sortVars fc eb t)) init) =
        evalTerms φ fixed wit chal init + evalTerms φ fixed wit chal ts by
    simpa [combine, evalTerms] using h []
  induction ts with
  | nil => intro init; simp [evalTerms]
  | cons t ts ih =>
    intro init
    simp only [List.foldl_cons, ih, insertTerm_eval, evalTerm_sortVars,
      evalTerms_cons]
    ring

theorem evalE_prodChain (vars : List (Expr F E)) :
    ∀ c : Expr F E, evalE φ fixed wit chal (vars.foldl .Product c) =
      evalE φ fixed wit chal c * (vars.map (evalE φ fixed wit chal)).prod := by
  induction vars with
  | nil => intro c; simp
  | cons v vs ih =>
    intro c
    simp only [List.foldl_cons, ih, List.map_cons, List.prod_cons]
    show evalE φ fixed wit chal (.Product c v) * _ = _
    simp only [evalE]
    ring

theorem evalE_sumChain (xs : List (Expr F E)) :
    ∀ x : Expr F E, evalE φ fixed wit chal (xs.foldl .Sum x) =
      evalE φ fixed wit chal x + (xs.map (evalE φ fixed wit chal)).sum := by
  induction xs with
  | nil => intro x; simp
  | cons y ys ih =>
    intro x
    simp only [List.foldl_cons, ih, List.map_cons, List.sum_cons]
    show evalE φ fixed wit chal (.Sum x y) + _ = _
    simp only [evalE]
    ring

theorem sumTerms_eval (ts : List (Term F E)) :
    evalE φ fixed wit chal (sumTerms ts) = evalTerms φ fixed wit chal ts := by
  have hmap : ∀ t : Term F E,
      evalE φ fixed wit chal (t.vars.foldl .Product t.coeff) =
        evalTerm φ fixed wit chal t := fun t => evalE_prodChain φ fixed wit chal _ _
  cases hts : ts.map (fun t => t.vars.foldl Expr.Product t.coeff) with
  | nil =>
    have : ts = [] := by
      cases ts with
      | nil => rfl
      | cons a l => simp at hts
    subst this
    simp [sumTerms, evalTerms, evalE]
  | cons x xs =>
    cases ts with
    | nil => simp at hts
    | cons t ts2 =>
      simp only [List.map_cons, List.cons.injEq] at hts
      obtain ⟨hx, hxs⟩ := hts
      simp only [sumTerms, List.map_cons, hx, hxs, evalTerms_cons]
      rw [evalE_sumChain]
      rw [← hx, ← hxs, hmap]
      congr 1
      rw [List.map_map]
      unfold evalTerms
      congr 1
      apply List.map_congr_left
      intro t _
      exact hmap t

/-- **C3.** For every expression `e` and every assignment of field values to
its `Fixed`, `WitIn` and `Challenge` leaves,
`eval(e) = eval(to_monomial_form(e))`. -/
theorem eval_toMonomialForm [DecidableEq F] [DecidableEq E] (fc : F → ℕ)
    (eb : E → List ℕ) (e : Expr F E) :
    evalE φ fixed wit chal (toMonomialForm fc eb e) =
      evalE φ fixed wit chal e := by
  unfold toMonomialForm
  rw [sumTerms_eval, combine_eval, distribute_eval]

/-! ### C5: canonical form -/

variable [DecidableEq F] [DecidableEq E]

/-- Every `Sum`/`Product` node has its children in comparison order
(`cmp(left, right) ≠ Greater`), recursively. -/
def cOrd (fc : F → ℕ) (eb : E → List ℕ) : Expr F E → Bool
  | .Sum a b => decide (cmp fc eb a b ≠ .gt) && cOrd fc eb a && cOrd fc eb b
  | .Product a b => decide (cmp fc eb a b ≠ .gt) && cOrd fc eb a && cOrd fc eb b
  | .ScaledSum x a b => cOrd fc eb x && cOrd fc eb a && cOrd fc eb b
  | _ => true

theorem toCanonical_Sum (fc : F → ℕ) (eb : E → List ℕ) (a b : Expr F E) :
    toCanonical fc eb (.Sum a b) =
      if cmp fc eb (toCanonical fc eb a) (toCanonical fc eb b) ≠ .gt then
        .Sum (toCanonical fc eb a) (toCanonical fc eb b)
      else .Sum (toCanonical fc eb b) (toCanonical fc eb a) := rfl

theorem toCanonical_Product (fc : F → ℕ) (eb : E → List ℕ) (a b : Expr F E) :
    toCanonical fc eb (.Product a b) =
      if cmp fc eb (toCanonical fc eb a) (toCanonical fc eb b) ≠ .gt then
        .Product (toCanonical fc eb a) (toCanonical fc eb b)
      else .Product (toCanonical fc eb b) (toCanonical fc eb a) := rfl

theorem toCanonical_ScaledSum (fc : F → ℕ) (eb : E → List ℕ) (x a b : Expr F E) :
    toCanonical fc eb (.ScaledSum x a b) =
      .ScaledSum (toCanonical fc eb x) (toCanonical fc eb a) (toCanonical fc eb b) := rfl

theorem toCanonical_idem (fc : F → ℕ) (eb : E → List ℕ) (e : Expr F E) :
    toCanonical fc eb (toCanonical fc eb e) = toCanonical fc eb e := by
  induction e with
  | Constant c => rfl
  | Fixed i => rfl
  | WitIn i => rfl
  | Challenge a b c d => rfl
  | Sum x y ihx ihy =>
    rw [toCanonical_Sum]
    by_cases h : cmp fc eb (toCanonical fc eb x) (toCanonical fc eb y) = .gt
    · rw [if_neg (not_not_intro h), toCanonical_Sum, ihx, ihy,
        if_pos (by simp [cmp_gt_lt fc eb h])]
    · rw [if_pos h, toCanonical_Sum, ihx, ihy, if_pos h]
  | Product x y ihx ihy =>
    rw [toCanonical_Product]
    by_cases h : cmp fc eb (toCanonical fc eb x) (toCanonical fc eb y) = .gt
    · rw [if_neg (not_not_intro h), toCanonical_Product, ihx, ihy,
        if_pos (by simp [cmp_gt_lt fc eb h])]
    · rw [if_pos h, toCanonical_Product, ihx, ihy, if_pos h]
  | ScaledSum x y z ihx ihy ihz =>
    rw [toCanonical_ScaledSum, toCanonical_ScaledSum, ihx, ihy, ihz]

theorem toCanonical_eval (fc : F → ℕ) (eb : E → List ℕ) (e : Expr F E) :
    evalE φ fixed wit chal (toCanonical fc eb e) = evalE φ fixed wit chal e := by
  induction e with
  | Constant c => rfl
  | Fixed i => rfl
  | WitIn i => rfl
  | Challenge a b c d => rfl
  | Sum x y ihx ihy =>
    rw [toCanonical_Sum]
    by_cases h : cmp fc eb (toCanonical fc eb x) (toCanonical fc eb y) = .gt
    · rw [if_neg (not_not_intro h)]
      show evalE φ fixed wit chal _ + evalE φ fixed wit chal _ = _
      rw [ihx, ihy]
      show _ = evalE φ fixed wit chal x + evalE φ fixed wit chal y
      ring
    · rw [if_pos h]
      show evalE φ fixed wit chal _ + evalE φ fixed wit chal _ = _
      rw [ihx, ihy]
      rfl
  | Product x y ihx ihy =>
    rw [toCanonical_Product]
    by_cases h : cmp fc eb (toCanonical fc eb x) (toCanonical fc eb y) = .gt
    · rw [if_neg (not_not_intro h)]
      show evalE φ fixed wit chal _ * evalE φ fixed wit chal _ = _
      rw [ihx, ihy]
      show _ = evalE φ fixed wit chal x * evalE φ fixed wit chal y
      ring
    · rw [if_pos h]
      show evalE φ fixed wit chal _ * evalE φ fixed wit chal _ = _
      rw [ihx, ihy]
      rfl
  | ScaledSum x y z ihx ihy ihz =>
    rw [toCanonical_ScaledSum]
    show evalE φ fixed wit chal _ * evalE φ fixed wit chal _ +
      evalE φ fixed wit chal _ = _
    rw [ihx, ihy, ihz]
    rfl

theorem toCanonical_cOrd (fc : F → ℕ) (eb : E → List ℕ) (e : Expr F E) :
    cOrd fc eb (toCanonical fc eb e) = true := by
  induction e with
  | Constant c => rfl
  | Fixed i => rfl
  | WitIn i => rfl
  | Challenge a b c d => rfl
  | Sum x y ihx ihy =>
    rw [toCanonical_Sum]
    by_cases h : cmp fc eb (toCanonical fc eb x) (toCanonical fc eb y) = .gt
    · rw [if_neg (not_not_intro h)]
      simp [cOrd, cmp_gt_lt fc eb h, ihx, ihy]
    · rw [if_pos h]
      simp [cOrd, h, ihx, ihy]
  | Product x y ihx ihy =>
    rw [toCanonical_Product]
    by_cases h : cmp fc eb (toCanonical fc eb x) (toCanonical fc eb y) = .gt
    · rw [if_neg (not_not_intro h)]
      simp [cOrd, cmp_gt_lt fc eb h, ihx, ihy]
    · rw [if_pos h]
      simp [cOrd, h, ihx, ihy]
  | ScaledSum x y z ihx ihy ihz =>
    rw [toCanonical_ScaledSum]
    simp [cOrd, ihx, ihy, ihz]

/-- **C5.** `to_canonical` is idempotent, preserves evaluation, never fails
(it is a total function), orders the children of every `Sum` and `Product`
node so that `cmp(left, right) ≠ Greater`, and does not swap the first and
second positional arguments of `ScaledSum`. -/
theorem toCanonical_spec (fc : F → ℕ) (eb : E → List ℕ) (e : Expr F E) :
    toCanonical fc eb (toCanonical fc eb e) = toCanonical fc eb e ∧
    evalE φ fixed wit chal (toCanonical fc eb e) = evalE φ fixed wit chal e ∧
    cOrd fc eb (toCanonical fc eb e) = true ∧
    (∀ x a b : Expr F E, toCanonical fc eb (.ScaledSum x a b) =
      .ScaledSum (toCanonical fc eb x) (toCanonical fc eb a) (toCanonical fc eb b)) :=
  ⟨toCanonical_idem fc eb e, toCanonical_eval φ fixed wit chal fc eb e,
    toCanonical_cOrd fc eb e, fun x a b => toCanonical_ScaledSum fc eb x a b⟩

/-! ### C6: shape of the monomial form -/

/-- `Fixed`, `WitIn` or `Challenge` — the leaves that `distribute` collects
as variables. -/
def isVarLeaf : Expr F E → Bool
  | .Fixed _ => true
  | .WitIn _ => true
  | .Challenge _ _ _ _ => true
  | _ => false

/-- One of `{Constant, Fixed, WitIn, Challenge}`. -/
def isLeaf : Expr F E → Bool
  | .Constant _ => true
  | e => isVarLeaf e

/-- A left-nested `Product` chain of leaves. -/
def isProdChain : Expr F E → Bool
  | .Product a b => isProdChain a && isVarLeaf b
  | e => isLeaf e

/-- A left-nested `Sum` chain of `Product` chains (a single chain counts). -/
def isSumOfProds : Expr F E → Bool
  | .Sum a b => isSumOfProds a && isProdChain b
  | e => isProdChain e

theorem isProdChain_foldl (vars : List (Expr F E)) :
    ∀ c : Expr F E, isProdChain c = true → (∀ v ∈ vars, isVarLeaf v = true) →
    isProdChain (vars.foldl .Product c) = true := by
  induction vars with
  | nil => intro c hc _; exact hc
  | cons v vs ih =>
    intro c hc hv
    simp only [List.foldl_cons]
    refine ih _ ?_ (fun x hx => hv x (by simp [hx]))
    show (isProdChain c && isVarLeaf v) = true
    simp [hc, hv v (by simp)]

theorem isSumOfProds_foldl (xs : List (Expr F E)) :
    ∀ x : Expr F E, isSumOfProds x = true → (∀ y ∈ xs, isProdChain y = true) →
    isSumOfProds (xs.foldl .Sum x) = true := by
  induction xs with
  | nil => intro x hx _; exact hx
  | cons y ys ih =>
    intro x hx hy
    simp only [List.foldl_cons]
    refine ih _ ?_ (fun z hz => hy z (by simp [hz]))
    show (isSumOfProds x && isProdChain y) = true
    simp [hx, hy y (by simp)]

/-- The invariant of `distribute`'s output that `combine` and `sum_terms`
rely on: coefficients are constants, variables are variable leaves. -/
def TermInv (t : Term F E) : Prop :=
  (∃ c, t.coeff = Expr.Constant c) ∧ ∀ v ∈ t.vars, isVarLeaf v = true

theorem exprMul_constant {a b : Expr F E} (ha : ∃ c, a = Expr.Constant c)
    (hb : ∃ c, b = Expr.Constant c) : ∃ c, exprMul a b = Expr.Constant c := by
  obtain ⟨ca, rfl⟩ := ha
  obtain ⟨cb, rfl⟩ := hb
  exact ⟨ca * cb, rfl⟩

theorem exprAdd_constant {a b : Expr F E} (ha : ∃ c, a = Expr.Constant c)
    (hb : ∃ c, b = Expr.Constant c) : ∃ c, exprAdd a b = Expr.Constant c := by
  obtain ⟨ca, rfl⟩ := ha
  obtain ⟨cb, rfl⟩ := hb
  exact ⟨ca + cb, rfl⟩

theorem distribute_inv (e : Expr F E) : ∀ t ∈ distribute e, TermInv t := by
  induction e with
  | Constant c =>
    intro t ht
    simp only [distribute, List.mem_singleton] at ht
    subst ht
    exact ⟨⟨c, rfl⟩, by simp⟩
  | Fixed i =>
    intro t ht
    simp only [distribute, List.mem_singleton] at ht
    subst ht
    exact ⟨⟨1, rfl⟩, by simp [isVarLeaf]⟩
  | WitIn i =>
    intro t ht
    simp only [distribute, List.mem_singleton] at ht
    subst ht
    exact ⟨⟨1, rfl⟩, by simp [isVarLeaf]⟩
  | Challenge a b c d =>
    intro t ht
    simp only [distribute, List.mem_singleton] at ht
    subst ht
    exact ⟨⟨1, rfl⟩, by simp [isVarLeaf]⟩
  | Sum a b iha ihb =>
    intro t ht
    simp only [distribute, List.mem_append] at ht
    rcases ht with h | h
    · exact iha t h
    · exact ihb t h
  | Product a b iha ihb =>
    intro t ht
    simp only [distribute, List.mem_flatMap, List.mem_map] at ht
    obtain ⟨ta, hta, tb, htb, rfl⟩ := ht
    obtain ⟨hca, hva⟩ := iha ta hta
    obtain ⟨hcb, hvb⟩ := ihb tb htb
    refine ⟨exprMul_constant hca hcb, ?_⟩
    intro v hv
    simp only [List.mem_append] at hv
    rcases hv with h | h
    · exact hva v h
    · exact hvb v h
  | ScaledSum x a b ihx iha ihb =>
    intro t ht
    simp only [distribute, List.mem_append, List.mem_flatMap, List.mem_map] at ht
    rcases ht with h | ⟨tx, htx, ta, hta, rfl⟩
    · exact ihb t h
    · obtain ⟨hcx, hvx⟩ := ihx tx htx
      obtain ⟨hca, hva⟩ := iha ta hta
      refine ⟨exprMul_constant hcx hca, ?_⟩
      intro v hv
      simp only [List.mem_append] at hv
      rcases hv with h | h
      · exact hvx v h
      · exact hva v h

theorem sortVars_inv (fc : F → ℕ) (eb : E → List ℕ) {t : Term F E}
    (h : TermInv t) : TermInv (sortVars fc eb t) := by
  obtain ⟨hc, hv⟩ := h
  refine ⟨hc, ?_⟩
  intro v hvmem
  have hperm : (List.insertionSort (fun a b => cmp fc eb a b ≠ Ordering.gt)
      t.vars).Perm t.vars := List.perm_insertionSort _ _
  exact hv v (hperm.mem_iff.mp hvmem)

theorem insertTerm_inv {res : List (Term F E)} {t : Term F E}
    (hres : ∀ s ∈ res, TermInv s) (ht : TermInv t) :
    ∀ s ∈ insertTerm res t, TermInv s := by
  induction res with
  | nil =>
    intro s hs
    simp only [insertTerm, List.mem_singleton] at hs
    subst hs
    exact ht
  | cons r rs ih =>
    intro s hs
    rw [insertTerm] at hs
    by_cases h : r.vars = t.vars
    · rw [if_pos h] at hs
      rcases List.mem_cons.mp hs with hh | hh
      · subst hh
        obtain ⟨hcr, hvr⟩ := hres r (by simp)
        exact ⟨exprAdd_constant hcr ht.1, hvr⟩
      · exact hres s (by simp [hh])
    · rw [if_neg h] at hs
      rcases List.mem_cons.mp hs with hh | hh
      · subst hh
        exact hres s (by simp)
      · exact ih (fun u hu => hres u (by simp [hu])) s hh

theorem combine_inv (fc : F → ℕ) (eb : E → List ℕ) (ts : List (Term F E))
    (h : ∀ t ∈ ts, TermInv t) : ∀ s ∈ combine fc eb ts, TermInv s := by
  suffices hgen : ∀ init : List (Term F E), (∀ s ∈ init, TermInv s) →
      ∀ s ∈ ts.foldl (fun res t => insertTerm res (sortVars fc eb t)) init,
        TermInv s by
    exact hgen [] (by simp)
  induction ts with
  | nil => intro init hinit; exact hinit
  | cons t ts2 ih =>
    intro init hinit
    simp only [List.foldl_cons]
    exact ih (fun u hu => h u (by simp [hu]))
      _ (insertTerm_inv hinit (sortVars_inv fc eb (h t (by simp))))

/-! Sortedness: insertion sort yields a `Chain'`-sorted list for any
relation `r` with `¬ r a b → r b a` (which `cmp … ≠ Greater` satisfies,
even though it is not transitive). -/

theorem chain_cons_orderedInsert {α : Type} (r : α → α → Prop) [DecidableRel r]
    (htot : ∀ a b, ¬ r a b → r b a) (a : α) :
    ∀ (l : List α) (x : α), List.Chain' r (x :: l) → r x a →
      List.Chain' r (x :: l.orderedInsert r a) := by
  intro l
  induction l with
  | nil =>
    intro x _ hxa
    simp [List.orderedInsert, List.chain'_cons, hxa]
  | cons b t ih =>
    intro x hchain hxa
    rw [List.orderedInsert]
    by_cases hab : r a b
    · rw [if_pos hab]
      rw [List.chain'_cons]
      refine ⟨hxa, ?_⟩
      rw [List.chain'_cons]
      exact ⟨hab, (List.chain'_cons.mp hchain).2⟩
    · rw [if_neg hab]
      rw [List.chain'_cons]
      refine ⟨(List.chain'_cons.mp hchain).1, ?_⟩
      exact ih b (List.chain'_cons.mp hchain).2 (htot a b hab)

theorem chain_orderedInsert {α : Type} (r : α → α → Prop) [DecidableRel r]
    (htot : ∀ a b, ¬ r a b → r b a) (a : α) (l : List α)
    (h : List.Chain' r l) : List.Chain' r (l.orderedInsert r a) := by
  cases l with
  | nil => simp
  | cons b t =>
    rw [List.orderedInsert]
    by_cases hab : r a b
    · rw [if_pos hab]
      rw [List.chain'_cons]
      exact ⟨hab, h⟩
    · rw [if_neg hab]
      exact chain_cons_orderedInsert r htot a t b h (htot a b hab)

theorem chain_insertionSort {α : Type} (r : α → α → Prop) [DecidableRel r]
    (htot : ∀ a b, ¬ r a b → r b a) (l : List α) :
    List.Chain' r (l.insertionSort r) := by
  induction l with
  | nil => simp
  | cons a t ih =>
    rw [List.insertionSort]
    exact chain_orderedInsert r htot a _ ih

theorem cmp_le_total (fc : F → ℕ) (eb : E → List ℕ) :
    ∀ a b : Expr F E, ¬ cmp fc eb a b ≠ .gt → cmp fc eb b a ≠ .gt := by
  intro a b h
  rw [not_not] at h
  rw [cmp_gt_lt fc eb h]
  simp

theorem insertTerm_vars_mem {res : List (Term F E)} {t : Term F E} :
    ∀ s ∈ insertTerm res t, (∃ r ∈ res, s.vars = r.vars) ∨ s.vars = t.vars := by
  induction res with
  | nil =>
    intro s hs
    simp only [insertTerm, List.mem_singleton] at hs
    subst hs
    exact Or.inr rfl
  | cons r rs ih =>
    intro s hs
    rw [insertTerm] at hs
    by_cases h : r.vars = t.vars
    · rw [if_pos h] at hs
      rcases List.mem_cons.mp hs with hh | hh
      · subst hh
        exact Or.inl ⟨r, by simp, rfl⟩
      · exact Or.inl ⟨s, by simp [hh], rfl⟩
    · rw [if_neg h] at hs
      rcases List.mem_cons.mp hs with hh | hh
      · subst hh
        exact Or.inl ⟨s, by simp, rfl⟩
      · rcases ih s hh with ⟨u, hu, huv⟩ | hv
        · exact Or.inl ⟨u, by simp [hu], huv⟩
        · exact Or.inr hv

theorem insertTerm_pairwise {res : List (Term F E)}
    (h : res.Pairwise (fun s u => s.vars ≠ u.vars)) (t : Term F E) :
    (insertTerm res t).Pairwise (fun s u => s.vars ≠ u.vars) := by
  induction res with
  | nil => simp [insertTerm]
  | cons r rs ih =>
    rw [insertTerm]
    rw [List.pairwise_cons] at h
    obtain ⟨hr, hrs⟩ := h
    by_cases hc : r.vars = t.vars
    · rw [if_pos hc]
      rw [List.pairwise_cons]
      exact ⟨fun u hu => hr u hu, hrs⟩
    · rw [if_neg hc]
      rw [List.pairwise_cons]
      refine ⟨?_, ih hrs⟩
      intro u hu
      rcases insertTerm_vars_mem u hu with ⟨v, hv, hvv⟩ | hv
      · rw [hvv]
        exact hr v hv
      · rw [hv]
        exact hc

/-- The variable lists of `combine`'s output are sorted
(adjacent-pairwise under `cmp … ≠ Greater`) and pairwise distinct. -/
theorem combine_sorted_distinct (fc : F → ℕ) (eb : E → List ℕ)
    (ts : List (Term F E)) :
    (∀ t ∈ combine fc eb ts,
      t.vars.Chain' (fun a b => cmp fc eb a b ≠ .gt)) ∧
    (combine fc eb ts).Pairwise (fun s u => s.vars ≠ u.vars) := by
  suffices hgen : ∀ init : List (Term F E),
      (∀ t ∈ init, t.vars.Chain' (fun a b => cmp fc eb a b ≠ .gt)) →
      init.Pairwise (fun s u => s.vars ≠ u.vars) →
      (∀ t ∈ ts.foldl (fun res t => insertTerm res (sortVars fc eb t)) init,
        t.vars.Chain' (fun a b => cmp fc eb a b ≠ .gt)) ∧
      (ts.foldl (fun res t => insertTerm res (sortVars fc eb t)) init).Pairwise
        (fun s u => s.vars ≠ u.vars) by
    exact hgen [] (by simp) (by simp)
  induction ts with
  | nil => intro init h1 h2; exact ⟨h1, h2⟩
  | cons t ts2 ih =>
    intro init h1 h2
    simp only [List.foldl_cons]
    apply ih
    · intro s hs
      rcases insertTerm_vars_mem s hs with ⟨r, hr, hvars⟩ | hvars
      · rw [hvars]
        exact h1 r hr
      · rw [hvars]
        exact chain_insertionSort _ (cmp_le_total fc eb) t.vars
    · exact insertTerm_pairwise h2 (sortVars fc eb t)

theorem isSumOfProds_of_prodChain {e : Expr F E} (h : isProdChain e = true) :
    isSumOfProds e = true := by
  cases e with
  | Sum a b =>
    have hf : isProdChain (Expr.Sum a b) = false := rfl
    rw [hf] at h
    exact Bool.noConfusion h
  | Constant c => exact h
  | Fixed i => exact h
  | WitIn i => exact h
  | Challenge a b c d => exact h
  | Product a b => exact h
  | ScaledSum x a b => exact h

theorem sumTerms_shape (ts : List (Term F E)) (h : ∀ t ∈ ts, TermInv t) :
    isSumOfProds (sumTerms ts) = true := by
  unfold sumTerms
  cases hts : ts.map (fun t => t.vars.foldl Expr.Product t.coeff) with
  | nil => rfl
  | cons x xs =>
    have hall : ∀ y ∈ x :: xs, isProdChain y = true := by
      rw [← hts]
      intro y hy
      rw [List.mem_map] at hy
      obtain ⟨t, ht, rfl⟩ := hy
      obtain ⟨⟨c, hc⟩, hv⟩ := h t ht
      refine isProdChain_foldl _ _ ?_ hv
      rw [hc]
      rfl
    exact isSumOfProds_foldl xs x
      (isSumOfProds_of_prodChain (hall x (by simp)))
      (fun y hy => hall y (by simp [hy]))

/-- **C6** (amended).  `to_monomial_form(e)` is a left-nested sum of one or
more terms (so the root is a `Sum` node exactly when there are at least two
terms); each term is a left-nested `Product` chain whose leaves are all
among `{Constant, Fixed, WitIn, Challenge}`; each term's variable list is
sorted with respect to the comparison function; and terms with equal sorted
variable lists have been merged by adding coefficients, so the surviving
variable lists are pairwise distinct. -/
theorem toMonomialForm_shape (fc : F → ℕ) (eb : E → List ℕ) (e : Expr F E) :
    isSumOfProds (toMonomialForm fc eb e) = true ∧
    (∀ t ∈ combine fc eb (distribute e),
      t.vars.Chain' (fun a b => cmp fc eb a b ≠ .gt)) ∧
    (combine fc eb (distribute e)).Pairwise (fun s u => s.vars ≠ u.vars) :=
  ⟨sumTerms_shape _ (combine_inv fc eb _ (distribute_inv e)),
    (combine_sorted_distinct fc eb (distribute e)).1,
    (combine_sorted_distinct fc eb (distribute e)).2⟩

/-- **C6** (counterexample to the claim as stated): the monomial form of the
single-variable expression `WitIn(0)` is the bare term
`Product(Constant(1), WitIn(0))`; its root is a `Product`, not a `Sum`. -/
theorem toMonomialForm_root_not_sum :
    toMonomialForm valF basesE (Expr.WitIn 0 : Expr (ZMod 97) (ZMod 97)) =
      Expr.Product (Expr.Constant 1) (Expr.WitIn 0) ∧
    ∀ a b : Expr (ZMod 97) (ZMod 97),
      toMonomialForm valF basesE (Expr.WitIn 0 : Expr (ZMod 97) (ZMod 97)) ≠
        Expr.Sum a b := by
  refine ⟨rfl, ?_⟩
  intro a b h
  rw [show toMonomialForm valF basesE (Expr.WitIn 0 : Expr (ZMod 97) (ZMod 97)) =
    Expr.Product (Expr.Constant 1) (Expr.WitIn 0) from rfl] at h
  exact Expr.noConfusion h

/-! ## C9: query-index derivation
(src/mpcs/src/multilinear/basefold.rs, `query_phase`)

The prover turns each squeezed challenge `x` into an index by taking
`x.to_repr()`, splitting off the first four bytes, reading them with
`u32::from_be_bytes`, and reducing modulo the codeword size.  Following §6 of
the spec ("a field element is hashed via its canonical-integer byte
encoding") and the `ff` crate convention, `to_repr` is the little-endian
byte encoding of the canonical integer, so byte `i` of `to_repr` is
`(v / 256^i) % 256` where `v` is the canonical integer. -/

/-- Byte `i` of the little-endian canonical byte encoding of `v`. -/
def leByte (v i : ℕ) : ℕ := (v / 256 ^ i) % 256

/-- The index computation of `query_phase`: `u32::from_be_bytes` of the
first four `to_repr` bytes of the challenge, reduced modulo the codeword
size.  `v` is the canonical integer of the challenge. -/
def queryIndex (v size : ℕ) : ℕ :=
  (leByte v 0 * 2 ^ 24 + leByte v 1 * 2 ^ 16 + leByte v 2 * 2 ^ 8 + leByte v 3) % size

/-- The spec's description of the same computation: `⌊x⌋ mod codeword_size`
on the canonical integer form. -/
def queryIndexSpec (v size : ℕ) : ℕ := v % size

/-- **C9** (counterexample): for the challenge with canonical integer `1`
and codeword size `4`, the code derives index `(1 · 2^24) mod 4 = 0` while
the spec's `⌊x⌋ mod codeword_size` is `1`. -/
theorem queryIndex_ne_spec : queryIndex 1 4 = 0 ∧ queryIndexSpec 1 4 = 1 ∧
    queryIndex 1 4 ≠ queryIndexSpec 1 4 := by
  refine ⟨by decide, by decide, by decide⟩

/-- Byte-reversal of a 32-bit word, as the amended claim describes it. -/
def byteSwap32 (w : ℕ) : ℕ :=
  (w % 256) * 2 ^ 24 + (w / 2 ^ 8 % 256) * 2 ^ 16 +
    (w / 2 ^ 16 % 256) * 2 ^ 8 + (w / 2 ^ 24 % 256)

/-- **C9** (amended).  Every query index is obtained from the squeezed
challenge by taking the low 32 bits of its canonical integer form,
byte-reversing them (reading the four least-significant canonical bytes in
big-endian order), and reducing modulo the codeword size. -/
theorem queryIndex_eq_byteSwap (v size : ℕ) :
    queryIndex v size = byteSwap32 (v % 2 ^ 32) % size := by
  have h0 : v % 2 ^ 32 % 256 = v % 256 := Nat.mod_mod_of_dvd v (by norm_num)
  have h1 : v % 2 ^ 32 / 2 ^ 8 % 256 = v / 256 % 256 := by
    rw [show (2 : ℕ) ^ 32 = 2 ^ 8 * 2 ^ 24 by norm_num,
      Nat.mod_mul_right_div_self,
      Nat.mod_mod_of_dvd _ (by norm_num : (256 : ℕ) ∣ 2 ^ 24),
      show (2 : ℕ) ^ 8 = 256 by norm_num]
  have h2 : v % 2 ^ 32 / 2 ^ 16 % 256 = v / 256 ^ 2 % 256 := by
    rw [show (2 : ℕ) ^ 32 = 2 ^ 16 * 2 ^ 16 by norm_num,
      Nat.mod_mul_right_div_self,
      Nat.mod_mod_of_dvd _ (by norm_num : (256 : ℕ) ∣ 2 ^ 16),
      show (2 : ℕ) ^ 16 = 256 ^ 2 by norm_num]
  have h3 : v % 2 ^ 32 / 2 ^ 24 % 256 = v / 256 ^ 3 % 256 := by
    rw [show (2 : ℕ) ^ 32 = 2 ^ 24 * 2 ^ 8 by norm_num,
      Nat.mod_mul_right_div_self,
      Nat.mod_mod_of_dvd _ (by norm_num : (256 : ℕ) ∣ 2 ^ 8),
      show (2 : ℕ) ^ 24 = 256 ^ 3 by norm_num]
  unfold queryIndex byteSwap32 leByte
  rw [h0, h1, h2, h3]
  norm_num

/-! ## C2: BaseFold encoding and codeword folding
(src/mpcs/src/multilinear/basefold.rs)

Vectors are embedded as total functions `ℕ → F`; a computation on a vector
of length `2^n` is the function restricted to indices `< 2^n` (values at
out-of-range indices are junk and never appear in the statements). -/

/-- `reverse_bits`: the bit-reversal of `i` within `w` bits. -/
def bitRev : ℕ → ℕ → ℕ
  | 0, _ => 0
  | w + 1, i => bitRev w (i / 2) + (i % 2) * 2 ^ w

theorem bitRev_lt : ∀ (w i : ℕ), bitRev w i < 2 ^ w := by
  intro w
  induction w with
  | zero => intro i; simp [bitRev]
  | succ w ih =>
    intro i
    have h1 := ih (i / 2)
    have h2 : i % 2 ≤ 1 := by omega
    have h3 : (i % 2) * 2 ^ w ≤ 2 ^ w := by
      calc (i % 2) * 2 ^ w ≤ 1 * 2 ^ w := Nat.mul_le_mul_right _ h2
      _ = 2 ^ w := by ring
    have : bitRev (w + 1) i = bitRev w (i / 2) + (i % 2) * 2 ^ w := rfl
    rw [this, pow_succ]
    omega

theorem bitRev_two_mul (w i : ℕ) : bitRev (w + 1) (2 * i) = bitRev w i := by
  have h1 : 2 * i / 2 = i := by omega
  have h2 : 2 * i % 2 = 0 := by omega
  show bitRev w (2 * i / 2) + (2 * i % 2) * 2 ^ w = bitRev w i
  rw [h1, h2]
  ring

theorem bitRev_two_mul_add_one (w i : ℕ) :
    bitRev (w + 1) (2 * i + 1) = bitRev w i + 2 ^ w := by
  have h1 : (2 * i + 1) / 2 = i := by omega
  have h2 : (2 * i + 1) % 2 = 1 := by omega
  show bitRev w ((2 * i + 1) / 2) + ((2 * i + 1) % 2) * 2 ^ w = bitRev w i + 2 ^ w
  rw [h1, h2]
  ring

theorem bitRev_high : ∀ (w A e : ℕ), A < 2 ^ w → e ≤ 1 →
    bitRev (w + 1) (A + e * 2 ^ w) = e + 2 * bitRev w A := by
  intro w
  induction w with
  | zero =>
    intro A e hA he
    interval_cases A
    interval_cases e
    · rfl
    · rfl
  | succ w ih =>
    intro A e hA he
    have hdiv : (A + e * 2 ^ (w + 1)) / 2 = A / 2 + e * 2 ^ w := by
      have h : A + e * 2 ^ (w + 1) = A + 2 * (e * 2 ^ w) := by ring
      rw [h]
      omega
    have hmod : (A + e * 2 ^ (w + 1)) % 2 = A % 2 := by
      have h : A + e * 2 ^ (w + 1) = A + 2 * (e * 2 ^ w) := by ring
      rw [h]
      omega
    have hA2 : A / 2 < 2 ^ w := by
      rw [pow_succ] at hA
      omega
    have lhs1 : bitRev (w + 1 + 1) (A + e * 2 ^ (w + 1)) =
        bitRev (w + 1) ((A + e * 2 ^ (w + 1)) / 2) +
          ((A + e * 2 ^ (w + 1)) % 2) * 2 ^ (w + 1) := rfl
    have rhs1 : bitRev (w + 1) A = bitRev w (A / 2) + (A % 2) * 2 ^ w := rfl
    rw [lhs1, hdiv, hmod, ih (A / 2) e hA2 he, rhs1]
    ring

theorem bitRev_bitRev : ∀ (w i : ℕ), i < 2 ^ w → bitRev w (bitRev w i) = i := by
  intro w
  induction w with
  | zero =>
    intro i hi
    interval_cases i
    rfl
  | succ w ih =>
    intro i hi
    have hstep : bitRev (w + 1) i = bitRev w (i / 2) + (i % 2) * 2 ^ w := rfl
    rw [hstep, bitRev_high w (bitRev w (i / 2)) (i % 2) (bitRev_lt w _) (by omega)]
    have hi2 : i / 2 < 2 ^ w := by
      rw [pow_succ] at hi
      omega
    rw [ih (i / 2) hi2]
    omega

variable [CommRing F]

/-- `reverse_index_bits_in_place` on a vector of length `2^n`:
entry `i` of the result is entry `bitRev n i` of the input. -/
def bitrevVec (n : ℕ) (v : ℕ → F) : ℕ → F := fun i => v (bitRev n i)

/-- Modelled from the spec: `horner(chunk, x)` (crate::util::arithmetic,
not among the sources) evaluates the polynomial with coefficient list
`chunk` at `x`; §4.4 describes `encode` as Reed–Solomon over the domain
`{1..2^(b+ρ)}`.  Entry `idx` of the concatenated base codewords of
`encode_rs_basecode` with message size `2^b` and rate `2^ρ`. -/
def baseEncode (b rho : ℕ) (c : ℕ → F) : ℕ → F := fun idx =>
  ∑ s ∈ Finset.range (2 ^ b),
    c (idx / 2 ^ (b + rho) * 2 ^ b + s) * ((idx % 2 ^ (b + rho) + 1 : ℕ) : F) ^ s

/-- One level of the in-place butterfly loop of
`evaluate_over_foldable_domain_generic_basecode`: within every chunk of
size `2·half`, position `j < half` receives `a + t_j·b` and position
`half + j` receives `a − t_j·b`, where `(a, b)` are the chunk's entries at
`j` and `half + j` and `t_j` is the level's table entry. -/
def foldableButterfly (half : ℕ) (t : ℕ → F) (v : ℕ → F) : ℕ → F := fun idx =>
  if idx % (2 * half) < half then v idx + t (idx % (2 * half)) * v (idx + half)
  else v (idx - half) - t (idx % (2 * half) - half) * v idx

/-- The butterfly levels of
`evaluate_over_foldable_domain_generic_basecode` applied on top of the base
codewords: level `m` travels from message size `2^(b+m)` to `2^(b+m+1)`,
using table level `b+m+ρ` (`table[i + log_rate]` in the source). -/
def encodeLevels (b rho : ℕ) (tbl : ℕ → ℕ → F) (c : ℕ → F) : ℕ → ℕ → F
  | 0 => baseEncode b rho c
  | m + 1 => foldableButterfly (2 ^ (b + m + rho)) (tbl (b + m + rho))
      (encodeLevels b rho tbl c m)

/-- `evaluate_over_foldable_domain_generic_basecode` composed with
`encode_rs_basecode` on a message of `2^k` coefficients (`k ≥ b`):
the codeword before bit-reversal. -/
def encodeFoldable (b rho k : ℕ) (tbl : ℕ → ℕ → F) (c : ℕ → F) : ℕ → F :=
  encodeLevels b rho tbl c (k - b)

/-- `interpolate2_weights(points, weight, x)`. -/
def interpolate2Weights (a0 a1 b0 b1 w x : F) : F :=
  a1 + (x - a0) * (b1 - a1) * w

/-- The per-level `(x, 1/(−2x))` table of `get_table_aes`: level `L` of
`table_w_weights` holds the flat-table level `L` in bit-reversed order,
paired with its precomputed weight. -/
def tableWWeights (tbl wtbl : ℕ → ℕ → F) (level i : ℕ) : F × F :=
  (tbl level (bitRev level i), wtbl level (bitRev level i))

/-- `basefold_one_round_by_interpolation_weights`: fold the (bit-reversed)
codeword `v` pairwise, interpolating the values at `(x0, −x0)` at the
challenge using the precomputed weight. -/
def basefoldOneRound (table : ℕ → ℕ → F × F) (levelIndex : ℕ) (v : ℕ → F)
    (challenge : F) : ℕ → F := fun i =>
  interpolate2Weights (table levelIndex i).1 (v (2 * i))
    (-(table levelIndex i).1) (v (2 * i + 1)) (table levelIndex i).2 challenge

/-- `EncodingScheme::fold_bitreversed_message`
(src/mpcs/src/basefold/encoding.rs, even–odd branch): pairs
`(y0, y1) ↦ y0 + y1·challenge`. -/
def foldBitreversedMessage (challenge : F) (msg : ℕ → F) : ℕ → F := fun i =>
  msg (2 * i) + msg (2 * i + 1) * challenge

theorem add_half_lt {half M idx : ℕ} (hidx : idx < 2 * half * M)
    (hmod : idx % (2 * half) < half) : idx + half < 2 * half * M := by
  have hpos : 0 < 2 * half := by
    rcases Nat.eq_zero_or_pos half with h | h
    · subst h; simp at hmod
    · omega
  have hdm := Nat.div_add_mod idx (2 * half)
  have hq : idx / (2 * half) + 1 ≤ M := by
    have := Nat.div_lt_iff_lt_mul hpos |>.mpr (by
      calc idx < 2 * half * M := hidx
      _ = M * (2 * half) := by ring)
    omega
  calc idx + half < 2 * half * (idx / (2 * half)) + 2 * half := by omega
  _ = 2 * half * (idx / (2 * half) + 1) := by ring
  _ ≤ 2 * half * M := Nat.mul_le_mul_left _ hq

theorem pow_split {a b : ℕ} (h : a ≤ b) : (2 : ℕ) ^ b = 2 ^ a * 2 ^ (b - a) := by
  rw [← pow_add]
  congr 1
  omega

theorem encodeLevels_agree (b rho : ℕ) (tbl : ℕ → ℕ → F) (c1 c2 : ℕ → F)
    (K : ℕ) (hc : ∀ s < 2 ^ K, c1 s = c2 s) :
    ∀ m, b + m ≤ K → ∀ idx < 2 ^ (K + rho),
      encodeLevels b rho tbl c1 m idx = encodeLevels b rho tbl c2 m idx := by
  intro m
  induction m with
  | zero =>
    intro hm idx hidx
    have hb : b ≤ K := by omega
    unfold encodeLevels baseEncode
    apply Finset.sum_congr rfl
    intro s hs
    rw [Finset.mem_range] at hs
    have hq : idx / 2 ^ (b + rho) < 2 ^ (K - b) := by
      rw [Nat.div_lt_iff_lt_mul (Nat.pos_pow_of_pos _ (by norm_num))]
      calc idx < 2 ^ (K + rho) := hidx
      _ = 2 ^ (b + rho) * 2 ^ (K - b) := by
        rw [← pow_add]; congr 1; omega
      _ = 2 ^ (K - b) * 2 ^ (b + rho) := by ring
    have harg : idx / 2 ^ (b + rho) * 2 ^ b + s < 2 ^ K := by
      calc idx / 2 ^ (b + rho) * 2 ^ b + s
          < idx / 2 ^ (b + rho) * 2 ^ b + 2 ^ b := by omega
      _ = (idx / 2 ^ (b + rho) + 1) * 2 ^ b := by ring
      _ ≤ 2 ^ (K - b) * 2 ^ b := Nat.mul_le_mul_right _ (by omega)
      _ = 2 ^ K := by rw [← pow_add]; congr 1; omega
    rw [hc _ harg]
  | succ m ih =>
    intro hm idx hidx
    have hmle : b + m ≤ K := by omega
    have hsplit : (2 : ℕ) ^ (K + rho) =
        2 * 2 ^ (b + m + rho) * 2 ^ (K - (b + m + 1)) := by
      have : (2 : ℕ) * 2 ^ (b + m + rho) = 2 ^ (b + m + rho + 1) := by
        rw [pow_succ]; ring
      rw [this, ← pow_add]
      congr 1
      omega
    unfold encodeLevels foldableButterfly
    by_cases hbranch : idx % (2 * 2 ^ (b + m + rho)) < 2 ^ (b + m + rho)
    · rw [if_pos hbranch, if_pos hbranch]
      rw [ih hmle idx hidx, ih hmle (idx + 2 ^ (b + m + rho))
        (by rw [hsplit] at hidx ⊢; exact add_half_lt hidx hbranch)]
    · rw [if_neg hbranch, if_neg hbranch]
      have hge : 2 ^ (b + m + rho) ≤ idx := by
        have := Nat.mod_le idx (2 * 2 ^ (b + m + rho))
        omega
      have hlt : idx - 2 ^ (b + m + rho) < 2 ^ (K + rho) :=
        Nat.lt_of_le_of_lt (Nat.sub_le _ _) hidx
      rw [ih hmle (idx - 2 ^ (b + m + rho)) hlt, ih hmle idx hidx]

theorem encodeLevels_linear (b rho : ℕ) (tbl : ℕ → ℕ → F) (c1 c2 : ℕ → F)
    (a : F) : ∀ m idx,
      encodeLevels b rho tbl (fun s => c1 s + a * c2 s) m idx =
        encodeLevels b rho tbl c1 m idx + a * encodeLevels b rho tbl c2 m idx := by
  intro m
  induction m with
  | zero =>
    intro idx
    unfold encodeLevels baseEncode
    rw [Finset.mul_sum, ← Finset.sum_add_distrib]
    apply Finset.sum_congr rfl
    intro s _
    ring
  | succ m ih =>
    intro idx
    unfold encodeLevels foldableButterfly
    by_cases hbranch : idx % (2 * 2 ^ (b + m + rho)) < 2 ^ (b + m + rho)
    · rw [if_pos hbranch, if_pos hbranch, if_pos hbranch,
        ih idx, ih (idx + 2 ^ (b + m + rho))]
      ring
    · rw [if_neg hbranch, if_neg hbranch, if_neg hbranch,
        ih (idx - 2 ^ (b + m + rho)), ih idx]
      ring

theorem encodeLevels_shift (b rho : ℕ) (tbl : ℕ → ℕ → F) (c : ℕ → F)
    (K : ℕ) : ∀ m, b + m ≤ K → ∀ idx < 2 ^ (K + rho),
      encodeLevels b rho tbl c m (idx + 2 ^ (K + rho)) =
        encodeLevels b rho tbl (fun s => c (s + 2 ^ K)) m idx := by
  intro m
  induction m with
  | zero =>
    intro hm idx hidx
    have hb : b ≤ K := by omega
    unfold encodeLevels baseEncode
    have hKsplit : (2 : ℕ) ^ (K + rho) = 2 ^ (b + rho) * 2 ^ (K - b) := by
      rw [← pow_add]; congr 1; omega
    have hdiv : (idx + 2 ^ (K + rho)) / 2 ^ (b + rho) =
        idx / 2 ^ (b + rho) + 2 ^ (K - b) := by
      rw [hKsplit]
      exact Nat.add_mul_div_left idx _ (Nat.pos_pow_of_pos _ (by norm_num))
    have hmod : (idx + 2 ^ (K + rho)) % 2 ^ (b + rho) = idx % 2 ^ (b + rho) := by
      rw [hKsplit]
      exact Nat.add_mul_mod_self_left idx _ _
    rw [hdiv, hmod]
    apply Finset.sum_congr rfl
    intro s _
    congr 2
    have : (2 : ℕ) ^ (K - b) * 2 ^ b = 2 ^ K := by
      rw [← pow_add]; congr 1; omega
    calc (idx / 2 ^ (b + rho) + 2 ^ (K - b)) * 2 ^ b + s
        = idx / 2 ^ (b + rho) * 2 ^ b + s + 2 ^ (K - b) * 2 ^ b := by ring
    _ = idx / 2 ^ (b + rho) * 2 ^ b + s + 2 ^ K := by rw [this]
  | succ m ih =>
    intro hm idx hidx
    have hmle : b + m ≤ K := by omega
    have hsplit : (2 : ℕ) ^ (K + rho) =
        2 * 2 ^ (b + m + rho) * 2 ^ (K - (b + m + 1)) := by
      have h2 : (2 : ℕ) * 2 ^ (b + m + rho) = 2 ^ (b + m + rho + 1) := by
        rw [pow_succ]; ring
      rw [h2, ← pow_add]
      congr 1
      omega
    have hmod : (idx + 2 ^ (K + rho)) % (2 * 2 ^ (b + m + rho)) =
        idx % (2 * 2 ^ (b + m + rho)) := by
      rw [hsplit]
      exact Nat.add_mul_mod_self_left idx _ _
    unfold encodeLevels foldableButterfly
    rw [hmod]
    by_cases hbranch : idx % (2 * 2 ^ (b + m + rho)) < 2 ^ (b + m + rho)
    · rw [if_pos hbranch, if_pos hbranch]
      have harr : idx + 2 ^ (K + rho) + 2 ^ (b + m + rho) =
          idx + 2 ^ (b + m + rho) + 2 ^ (K + rho) := by ring
      rw [harr, ih hmle idx hidx, ih hmle (idx + 2 ^ (b + m + rho))
        (by rw [hsplit] at hidx ⊢; exact add_half_lt hidx hbranch)]
    · rw [if_neg hbranch, if_neg hbranch]
      have hge : 2 ^ (b + m + rho) ≤ idx := by
        have := Nat.mod_le idx (2 * 2 ^ (b + m + rho))
        omega
      have harr : idx + 2 ^ (K + rho) - 2 ^ (b + m + rho) =
          idx - 2 ^ (b + m + rho) + 2 ^ (K + rho) := by omega
      have hlt : idx - 2 ^ (b + m + rho) < 2 ^ (K + rho) :=
        Nat.lt_of_le_of_lt (Nat.sub_le _ _) hidx
      rw [harr, ih hmle (idx - 2 ^ (b + m + rho)) hlt, ih hmle idx hidx]

theorem encodeLevels_succ (b rho : ℕ) (tbl : ℕ → ℕ → F) (c : ℕ → F) (m : ℕ) :
    encodeLevels b rho tbl c (m + 1) =
      foldableButterfly (2 ^ (b + m + rho)) (tbl (b + m + rho))
        (encodeLevels b rho tbl c m) := rfl

/-- **C2.** For every message `c` of `2^k` coefficients with `k` strictly
above the base-code log size `b`, and every challenge `α`: folding the
bit-reversed codeword of `c` at `α` with the precomputed
`(x₀, 1/(−2x₀))` weights equals, modulo bit-reversal, the encoding of the
folded bit-reversed message (pairs `y₀ + α·y₁`).  The hypothesis `hw` states
that the precomputed weights really are `1/(−2x₀)`, as `get_table_aes`
produces them by batch inversion. -/
theorem codeword_fold_commutes (b rho k : ℕ) (tbl wtbl : ℕ → ℕ → F)
    (c : ℕ → F) (alpha : F) (hk : b < k)
    (hw : ∀ j < 2 ^ (k - 1 + rho),
      wtbl (k - 1 + rho) j * (-(2 * tbl (k - 1 + rho) j)) = 1) :
    ∀ i < 2 ^ (k - 1 + rho),
      basefoldOneRound (tableWWeights tbl wtbl) (k - 1 + rho)
          (bitrevVec (k + rho) (encodeFoldable b rho k tbl c)) alpha i =
        bitrevVec (k - 1 + rho)
          (encodeFoldable b rho (k - 1) tbl
            (bitrevVec (k - 1) (foldBitreversedMessage alpha (bitrevVec k c)))) i := by
  intro i hi
  have hkr : k + rho = (k - 1 + rho) + 1 := by omega
  have hk2 : k = (k - 1) + 1 := by omega
  set j := bitRev (k - 1 + rho) i with hjdef
  have hj : j < 2 ^ (k - 1 + rho) := bitRev_lt _ _
  set c' := bitrevVec (k - 1) (foldBitreversedMessage alpha (bitrevVec k c))
    with hc'def
  -- the left-hand side is an interpolation of the two codeword entries
  have h2i : bitRev (k + rho) (2 * i) = j := by
    rw [congrArg bitRev hkr, bitRev_two_mul]
  have h2i1 : bitRev (k + rho) (2 * i + 1) = j + 2 ^ (k - 1 + rho) := by
    rw [congrArg bitRev hkr, bitRev_two_mul_add_one]
  have hL : basefoldOneRound (tableWWeights tbl wtbl) (k - 1 + rho)
      (bitrevVec (k + rho) (encodeFoldable b rho k tbl c)) alpha i =
      interpolate2Weights (tbl (k - 1 + rho) j)
        (encodeFoldable b rho k tbl c j)
        (-(tbl (k - 1 + rho) j))
        (encodeFoldable b rho k tbl c (j + 2 ^ (k - 1 + rho)))
        (wtbl (k - 1 + rho) j) alpha := by
    show interpolate2Weights (tbl (k - 1 + rho) j)
        (encodeFoldable b rho k tbl c (bitRev (k + rho) (2 * i)))
        (-(tbl (k - 1 + rho) j))
        (encodeFoldable b rho k tbl c (bitRev (k + rho) (2 * i + 1)))
        (wtbl (k - 1 + rho) j) alpha = _
    rw [h2i, h2i1]
  -- unfold the top butterfly level of the `2^k`-message encoding
  have hEkeq : k - b = (k - 1 - b) + 1 := by omega
  have hbm : b + (k - 1 - b) = k - 1 := by omega
  have hmodlo : j % (2 * 2 ^ (k - 1 + rho)) = j := Nat.mod_eq_of_lt (by omega)
  have hmodhi : (j + 2 ^ (k - 1 + rho)) % (2 * 2 ^ (k - 1 + rho)) =
      j + 2 ^ (k - 1 + rho) := Nat.mod_eq_of_lt (by omega)
  have hEk_lo : encodeFoldable b rho k tbl c j =
      encodeFoldable b rho (k - 1) tbl c j +
        tbl (k - 1 + rho) j *
          encodeFoldable b rho (k - 1) tbl c (j + 2 ^ (k - 1 + rho)) := by
    unfold encodeFoldable
    rw [hEkeq, encodeLevels_succ, hbm]
    unfold foldableButterfly
    rw [hmodlo, if_pos hj]
  have hEk_hi : encodeFoldable b rho k tbl c (j + 2 ^ (k - 1 + rho)) =
      encodeFoldable b rho (k - 1) tbl c j -
        tbl (k - 1 + rho) j *
          encodeFoldable b rho (k - 1) tbl c (j + 2 ^ (k - 1 + rho)) := by
    unfold encodeFoldable
    rw [hEkeq, encodeLevels_succ, hbm]
    unfold foldableButterfly
    rw [hmodhi, if_neg (by omega)]
    have hsub : j + 2 ^ (k - 1 + rho) - 2 ^ (k - 1 + rho) = j := by omega
    rw [hsub]
  -- the folded bit-reversed message agrees with `c s + α·c(s + 2^(k-1))`
  have hcfold : ∀ s < 2 ^ (k - 1),
      c' s = c s + alpha * c (s + 2 ^ (k - 1)) := by
    intro s hs
    show foldBitreversedMessage alpha (bitrevVec k c) (bitRev (k - 1) s) = _
    unfold foldBitreversedMessage bitrevVec
    have e1 : bitRev k (2 * bitRev (k - 1) s) = s := by
      rw [congrArg bitRev hk2, bitRev_two_mul, bitRev_bitRev _ _ hs]
    have e2 : bitRev k (2 * bitRev (k - 1) s + 1) = s + 2 ^ (k - 1) := by
      rw [congrArg bitRev hk2, bitRev_two_mul_add_one, bitRev_bitRev _ _ hs]
    rw [e1, e2]
    ring
  -- the right-hand side: agreement below `2^(k-1)`, linearity, then shift
  have hRHS : encodeFoldable b rho (k - 1) tbl c' j =
      encodeFoldable b rho (k - 1) tbl c j +
        alpha * encodeFoldable b rho (k - 1) tbl c (j + 2 ^ (k - 1 + rho)) := by
    unfold encodeFoldable
    rw [encodeLevels_agree b rho tbl c'
        (fun s => c s + alpha * c (s + 2 ^ (k - 1))) (k - 1) hcfold
        (k - 1 - b) (by omega) j hj,
      encodeLevels_linear]
    congr 1
    rw [← encodeLevels_shift b rho tbl c (k - 1) (k - 1 - b) (by omega) j hj]
  -- assemble
  show basefoldOneRound (tableWWeights tbl wtbl) (k - 1 + rho)
      (bitrevVec (k + rho) (encodeFoldable b rho k tbl c)) alpha i =
    encodeFoldable b rho (k - 1) tbl c' j
  rw [hL, hEk_lo, hEk_hi, hRHS]
  unfold interpolate2Weights
  have hw2 := hw j hj
  set A := encodeFoldable b rho (k - 1) tbl c j
  set B := encodeFoldable b rho (k - 1) tbl c (j + 2 ^ (k - 1 + rho))
  set x := tbl (k - 1 + rho) j
  set w := wtbl (k - 1 + rho) j
  have hstep : A + x * B + (alpha - x) * (A - x * B - (A + x * B)) * w =
      A + x * B + (alpha - x) * B * (w * (-(2 * x))) := by ring
  rw [hstep, hw2]
  ring

/-- Concrete table for the `codeword_fold_commutes` witness. -/
def tblW : ℕ → ℕ → ZMod 97 := fun _ _ => 1

/-- Concrete weight table for the `codeword_fold_commutes` witness
(`48 = 1/(−2)` in `ZMod 97`). -/
def wtblW : ℕ → ℕ → ZMod 97 := fun _ _ => 48

/-- Concrete message for the `codeword_fold_commutes` witness. -/
def cW : ℕ → ZMod 97 := fun s => (s : ZMod 97)

/-- Witness for `codeword_fold_commutes` at `b = 0`, `ρ = 0`, `k = 1` over
`ZMod 97`. -/
theorem codeword_fold_commutes_witness :
    (0 < 1) ∧
    (∀ j < 2 ^ (1 - 1 + 0),
      wtblW (1 - 1 + 0) j * (-(2 * tblW (1 - 1 + 0) j)) = 1) ∧
    (∀ i < 2 ^ (1 - 1 + 0),
      basefoldOneRound (tableWWeights tblW wtblW) (1 - 1 + 0)
          (bitrevVec (1 + 0) (encodeFoldable 0 0 1 tblW cW)) 5 i =
        bitrevVec (1 - 1 + 0)
          (encodeFoldable 0 0 (1 - 1) tblW
            (bitrevVec (1 - 1) (foldBitreversedMessage 5 (bitrevVec 1 cW)))) i) :=
  ⟨Nat.zero_lt_one, by decide,
    codeword_fold_commutes 0 0 1 tblW wtblW cW 5 Nat.zero_lt_one (by decide)⟩

/-! ## C8: mock prover error aggregation
(src/ceno_zkvm/src/scheme/mock_prover.rs, `MockProver::run_maybe_challenge`)

The constraint system is modelled by the three lists the function reads:
the zero-assertion expressions (main and sumcheck lists chained, zipped with
their namespace maps), the lookup expressions (zipped with their namespace
map), and `lk_expressions_items_map`.  Row evaluation
(`wit_infer_by_expr` followed by `get_base_field_vec`/`get_ext_field_vec`,
src/ceno_zkvm/src/scheme/utils.rs, not among the sources) is supplied as a
function `evalRow : row → expression → value`; the loaded lookup table is
supplied as the list of its values (membership is by canonical equality);
the key packing of `LkMultiplicity` (src/ceno_zkvm/src/witness.rs, not
among the sources; per §3 a key is an integer encoding of the argued tuple)
is supplied as `pack`; `canon` plays `to_canonical_u64`. -/

/-- `ROMType`. -/
inductive ROMType where
  | U5 | U8 | U14 | U16 | And | Or | Xor | Ltu | Pow | Instruction
  deriving DecidableEq

/-- `ROMType::iter()`. -/
def romTypeList : List ROMType :=
  [.U5, .U8, .U14, .U16, .And, .Or, .Xor, .Ltu, .Pow, .Instruction]

/-- `MockProverError`. -/
inductive MockProverError (F E : Type) where
  | AssertZeroError (expression : Expr F E) (evaluated : E) (name : String)
      (instId : ℕ)
  | AssertEqualError (leftExpression rightExpression : Expr F E)
      (left right : E) (name : String) (instId : ℕ)
  | LookupError (expression : Expr F E) (evaluated : E) (name : String)
      (instId : ℕ)
  | LkMultiplicityError (romType : ROMType) (key : ℕ) (count : ℤ) (instId : ℕ)
  deriving DecidableEq

/-- Contiguous-substring test on character lists (`str::contains`). -/
def hasSub (pat : List Char) : List Char → Bool
  | [] => pat.isEmpty
  | c :: rest => pat.isPrefixOf (c :: rest) || hasSub pat rest

/-- `name.contains("require_equal")`. -/
def nameContains (name pat : String) : Bool := hasSub pat.data name.data

/-- Modelled from the spec: negation of an expression (`Neg` lives in
src/ceno_zkvm/src/expression.rs, not among the sources).  §4.2 only needs
`eval(neg e) = −eval e`; we realize it as `ScaledSum(Constant(−1), e,
Constant(0))`. -/
def negE (e : Expr F E) : Expr F E :=
  .ScaledSum (.Constant (-1)) e (.Constant 0)

/-- The model of the constraint-system fields `run_maybe_challenge` reads. -/
structure MockCS (F E : Type) where
  assertZeroExpressions : List (Expr F E × String)
  lkExpressions : List (Expr F E × String)
  lkItems : List (ROMType × List (Expr F E))

/-- Whether a zero-assertion constraint is checked as an equality:
`name.contains("require_equal") && expr.unpack_sum().is_some()`; when so,
the two children of the `Sum` root. -/
def eqCheckOf (p : Expr F E × String) : Option (Expr F E × Expr F E) :=
  match p.1, nameContains p.2 "require_equal" with
  | .Sum left right0, true => some (left, right0)
  | _, _ => none

def zeroExprErrors (evalRow : ℕ → Expr F E → E)
    (n : ℕ) (p : Expr F E × String) : List (MockProverError F E) :=
  match eqCheckOf p with
  | some (left, right0) =>
    (List.range n).filterMap (fun inst =>
      if evalRow inst left = evalRow inst (negE right0) then none
      else some (.AssertEqualError left (negE right0) (evalRow inst left)
        (evalRow inst (negE right0)) p.2 inst))
  | none =>
    (List.range n).filterMap (fun inst =>
      if evalRow inst p.1 = 0 then none
      else some (.AssertZeroError p.1 (evalRow inst p.1) p.2 inst))

/-- The lookup loop: one `LookupError` per row whose evaluated lookup
expression is missing from the loaded table. -/
def lookupExprErrors (evalRow : ℕ → Expr F E → E) (n : ℕ)
    (table : List E) (p : Expr F E × String) : List (MockProverError F E) :=
  (List.range n).filterMap (fun inst =>
    if evalRow inst p.1 ∈ table then none
    else some (.LookupError p.1 (evalRow inst p.1) p.2 inst))

/-- `LkMultiplicity` increment: bump the count of `k` (maps are association
lists with unique keys, insertion at the end). -/
def bump : List (ℕ × ℕ) → ℕ → List (ℕ × ℕ)
  | [], k => [(k, 1)]
  | (k2, cnt) :: rest, k =>
      if k2 = k then (k2, cnt + 1) :: rest else (k2, cnt) :: bump rest k

/-- Map lookup (`HashMap::get`). -/
def lkmGet (m : List (ℕ × ℕ)) (k : ℕ) : Option ℕ :=
  (m.find? (fun p => decide (p.1 = k))).map Prod.snd

/-- The count of a key, absent keys counting zero. -/
def lkmCount (m : List (ℕ × ℕ)) (k : ℕ) : ℕ := (lkmGet m k).getD 0

/-- The multiplicity the constraint system predicts for one `ROMType`:
evaluate each of its lookup-argument lists at instance 0, pack the canonical
values into a key, and count (the fold over `lk_expressions_items_map`
restricted to one `ROMType`). -/
def lkmFromCS (canon : E → ℕ) (pack : ROMType → List ℕ → ℕ)
    (evalRow : ℕ → Expr F E → E) (items : List (ROMType × List (Expr F E)))
    (rt : ROMType) : List (ℕ × ℕ) :=
  (items.filter (fun q => decide (q.1 = rt))).foldl
    (fun m q => bump m (pack rt (q.2.map (fun e => canon (evalRow 0 e))))) []

/-- `HashMap` equality: the same keys with the same values. -/
def mapEqB (m1 m2 : List (ℕ × ℕ)) : Bool :=
  decide ((∀ k ∈ m1.map Prod.fst, lkmGet m1 k = lkmGet m2 k) ∧
    (∀ k ∈ m2.map Prod.fst, lkmGet m1 k = lkmGet m2 k))

/-- The three-way multiplicity diff for one `ROMType`: keys missing from the
constraint system (positive count), keys missing from the assignment
(negative count), and keys present in both with different counts
(assignment minus constraint system). -/
def lkmDiffErrors (rt : ROMType) (csMap assMap : List (ℕ × ℕ)) :
    List (MockProverError F E) :=
  if mapEqB csMap assMap then []
  else
    ((assMap.map Prod.fst).filter
        (fun k => decide (k ∉ csMap.map Prod.fst))).map
      (fun k => .LkMultiplicityError rt k ((lkmCount assMap k : ℕ) : ℤ) 0) ++
    ((csMap.map Prod.fst).filter
        (fun k => decide (k ∉ assMap.map Prod.fst))).map
      (fun k => .LkMultiplicityError rt k (-((lkmCount csMap k : ℕ) : ℤ)) 0) ++
    ((csMap.map Prod.fst).filter (fun k =>
        decide (k ∈ assMap.map Prod.fst ∧ lkmCount csMap k ≠ lkmCount assMap k))).map
      (fun k => .LkMultiplicityError rt k
        (((lkmCount assMap k : ℕ) : ℤ) - ((lkmCount csMap k : ℕ) : ℤ)) 0)

/-- `MockProver::run_maybe_challenge`: collect the zero-assertion errors,
then the lookup errors, then (when a recorded multiplicity is supplied) the
multiplicity diffs; return `Ok(())` exactly when the collected list is
empty. -/
def runMockProver (cs : MockCS F E)
    (evalRow : ℕ → Expr F E → E) (n : ℕ) (table : List E) (canon : E → ℕ)
    (pack : ROMType → List ℕ → ℕ) (lkm : Option (ROMType → List (ℕ × ℕ))) :
    Except (List (MockProverError F E)) Unit :=
  let zeroErrors := cs.assertZeroExpressions.flatMap (zeroExprErrors evalRow n)
  let lookupErrors := cs.lkExpressions.flatMap (lookupExprErrors evalRow n table)
  let lkmErrors := match lkm with
    | none => []
    | some assMaps => romTypeList.flatMap (fun rt =>
        lkmDiffErrors rt (lkmFromCS canon pack evalRow cs.lkItems rt)
          (assMaps rt))
  let errors := zeroErrors ++ lookupErrors ++ lkmErrors
  if errors.isEmpty then .ok () else .error errors

/-- The claim's per-row/per-key description of "no violation exists". -/
def NoViolation (cs : MockCS F E)
    (evalRow : ℕ → Expr F E → E) (n : ℕ) (table : List E) (canon : E → ℕ)
    (pack : ROMType → List ℕ → ℕ) (lkm : Option (ROMType → List (ℕ × ℕ))) :
    Prop :=
  (∀ p ∈ cs.assertZeroExpressions, ∀ inst, inst < n →
    (match eqCheckOf p with
     | some (left, right0) => evalRow inst left = evalRow inst (negE right0)
     | none => evalRow inst p.1 = 0)) ∧
  (∀ p ∈ cs.lkExpressions, ∀ inst, inst < n → evalRow inst p.1 ∈ table) ∧
  (∀ assMaps, lkm = some assMaps → ∀ rt ∈ romTypeList, ∀ k,
    lkmCount (lkmFromCS canon pack evalRow cs.lkItems rt) k =
      lkmCount (assMaps rt) k)

theorem lkmGet_eq_none {m : List (ℕ × ℕ)} {k : ℕ} :
    lkmGet m k = none ↔ k ∉ m.map Prod.fst := by
  unfold lkmGet
  constructor
  · intro h hk
    rw [List.mem_map] at hk
    obtain ⟨q, hq, hqk⟩ := hk
    cases hf : List.find? (fun p => decide (p.1 = k)) m with
    | none =>
      rw [List.find?_eq_none] at hf
      have hne : q.1 ≠ k := by simpa using hf q hq
      exact hne hqk
    | some v => rw [hf] at h; simp at h
  · intro hk
    cases hf : List.find? (fun p => decide (p.1 = k)) m with
    | none => rfl
    | some v =>
      have hv := List.find?_some hf
      have hm := List.mem_of_find?_eq_some hf
      simp only [decide_eq_true_eq] at hv
      exact absurd (List.mem_map.mpr ⟨v, hm, hv⟩) hk

theorem lkmGet_mem {m : List (ℕ × ℕ)} {k v : ℕ} (h : lkmGet m k = some v) :
    (k, v) ∈ m := by
  unfold lkmGet at h
  cases hf : List.find? (fun p => decide (p.1 = k)) m with
  | none => rw [hf] at h; simp at h
  | some q =>
    rw [hf] at h
    simp at h
    have hq := List.mem_of_find?_eq_some hf
    have hqk := List.find?_some hf
    simp only [decide_eq_true_eq] at hqk
    have hqe : (k, v) = q := by
      cases q
      simp_all
    rw [hqe]
    exact hq

theorem lkmGet_pos {m : List (ℕ × ℕ)} {k v : ℕ} (hpos : ∀ q ∈ m, 0 < q.2)
    (h : lkmGet m k = some v) : 0 < v :=
  hpos (k, v) (lkmGet_mem h)

theorem count_eq_iff_get_eq {m1 m2 : List (ℕ × ℕ)} (h1 : ∀ q ∈ m1, 0 < q.2)
    (h2 : ∀ q ∈ m2, 0 < q.2) (k : ℕ) :
    lkmCount m1 k = lkmCount m2 k ↔ lkmGet m1 k = lkmGet m2 k := by
  constructor
  · intro h
    cases hg1 : lkmGet m1 k with
    | none =>
      cases hg2 : lkmGet m2 k with
      | none => rfl
      | some v =>
        have hv : 0 < v := lkmGet_pos h2 hg2
        unfold lkmCount at h
        rw [hg1, hg2] at h
        simp at h
        omega
    | some v =>
      have hv := lkmGet_pos h1 hg1
      cases hg2 : lkmGet m2 k with
      | none =>
        unfold lkmCount at h
        rw [hg1, hg2] at h
        simp at h
        omega
      | some w =>
        unfold lkmCount at h
        rw [hg1, hg2] at h
        simp at h
        rw [h]
  · intro h
    unfold lkmCount
    rw [h]

theorem mapEqB_true_iff {m1 m2 : List (ℕ × ℕ)} :
    mapEqB m1 m2 = true ↔ ∀ k, lkmGet m1 k = lkmGet m2 k := by
  unfold mapEqB
  rw [decide_eq_true_eq]
  constructor
  · rintro ⟨ha, hb⟩ k
    by_cases hk1 : k ∈ m1.map Prod.fst
    · exact ha k hk1
    · by_cases hk2 : k ∈ m2.map Prod.fst
      · exact hb k hk2
      · rw [lkmGet_eq_none.mpr hk1, lkmGet_eq_none.mpr hk2]
  · intro h
    exact ⟨fun k _ => h k, fun k _ => h k⟩

theorem lkmDiffErrors_eq_nil_iff {rt : ROMType} {csMap assMap : List (ℕ × ℕ)}
    (hcs : ∀ q ∈ csMap, 0 < q.2) (hass : ∀ q ∈ assMap, 0 < q.2) :
    lkmDiffErrors (F := F) (E := E) rt csMap assMap = [] ↔
      ∀ k, lkmCount csMap k = lkmCount assMap k := by
  unfold lkmDiffErrors
  by_cases heq : mapEqB csMap assMap = true
  · rw [if_pos heq]
    constructor
    · intro _ k
      exact (count_eq_iff_get_eq hcs hass k).mpr (mapEqB_true_iff.mp heq k)
    · intro _
      rfl
  · rw [if_neg heq]
    constructor
    · intro hall
      rw [List.append_assoc, List.append_eq_nil] at hall
      obtain ⟨h1, hall2⟩ := hall
      rw [List.append_eq_nil] at hall2
      obtain ⟨h2, h3⟩ := hall2
      rw [List.map_eq_nil_iff, List.filter_eq_nil_iff] at h1 h2 h3
      intro k
      by_cases hkcs : k ∈ csMap.map Prod.fst
      · have hkass : k ∈ assMap.map Prod.fst := by
          by_contra hno
          exact (h2 k hkcs) (by simpa using hno)
        by_contra hne
        exact (h3 k hkcs) (by simp [hkass, hne])
      · have hkass : k ∉ assMap.map Prod.fst := by
          intro hk
          exact (h1 k hk) (by simpa using hkcs)
        unfold lkmCount
        rw [lkmGet_eq_none.mpr hkcs, lkmGet_eq_none.mpr hkass]
    · intro hcount
      exact absurd (mapEqB_true_iff.mpr
        (fun k => (count_eq_iff_get_eq hcs hass k).mp (hcount k))) heq

theorem bump_pos {m : List (ℕ × ℕ)} {k : ℕ} (h : ∀ q ∈ m, 0 < q.2) :
    ∀ q ∈ bump m k, 0 < q.2 := by
  induction m with
  | nil =>
    intro q hq
    simp only [bump, List.mem_singleton] at hq
    subst hq
    norm_num
  | cons r rs ih =>
    intro q hq
    obtain ⟨k2, cnt⟩ := r
    rw [bump] at hq
    by_cases hk : k2 = k
    · rw [if_pos hk] at hq
      rcases List.mem_cons.mp hq with hh | hh
      · subst hh
        simp
      · exact h q (by simp [hh])
    · rw [if_neg hk] at hq
      rcases List.mem_cons.mp hq with hh | hh
      · subst hh
        exact h (k2, cnt) (by simp)
      · exact ih (fun u hu => h u (by simp [hu])) q hh

theorem lkmFromCS_pos (canon : E → ℕ)
    (pack : ROMType → List ℕ → ℕ) (evalRow : ℕ → Expr F E → E)
    (items : List (ROMType × List (Expr F E))) (rt : ROMType) :
    ∀ q ∈ lkmFromCS canon pack evalRow items rt, 0 < q.2 := by
  unfold lkmFromCS
  generalize (items.filter (fun q => decide (q.1 = rt))) = l
  suffices hgen : ∀ init : List (ℕ × ℕ), (∀ q ∈ init, 0 < q.2) →
      ∀ q ∈ l.foldl (fun m q =>
        bump m (pack rt (q.2.map (fun e => canon (evalRow 0 e))))) init,
        0 < q.2 by
    exact hgen [] (by simp)
  induction l with
  | nil => intro init hinit; exact hinit
  | cons x xs ih =>
    intro init hinit
    simp only [List.foldl_cons]
    exact ih _ (bump_pos hinit)

theorem zeroExprErrors_eq_nil_iff
    {evalRow : ℕ → Expr F E → E} {n : ℕ} {p : Expr F E × String} :
    zeroExprErrors evalRow n p = [] ↔ ∀ inst, inst < n →
      (match eqCheckOf p with
       | some (left, right0) => evalRow inst left = evalRow inst (negE right0)
       | none => evalRow inst p.1 = 0) := by
  cases hc : eqCheckOf p with
  | some pr =>
    obtain ⟨l, r⟩ := pr
    simp only [zeroExprErrors, hc]
    rw [List.filterMap_eq_nil_iff]
    constructor
    · intro h inst hinst
      have h2 := h inst (List.mem_range.mpr hinst)
      by_cases he : evalRow inst l = evalRow inst (negE r)
      · exact he
      · rw [if_neg he] at h2
        simp at h2
    · intro h inst hinst
      rw [List.mem_range] at hinst
      rw [if_pos (h inst hinst)]
  | none =>
    simp only [zeroExprErrors, hc]
    rw [List.filterMap_eq_nil_iff]
    constructor
    · intro h inst hinst
      have h2 := h inst (List.mem_range.mpr hinst)
      by_cases he : evalRow inst p.1 = 0
      · exact he
      · rw [if_neg he] at h2
        simp at h2
    · intro h inst hinst
      rw [List.mem_range] at hinst
      rw [if_pos (h inst hinst)]

theorem lookupExprErrors_eq_nil_iff
    {evalRow : ℕ → Expr F E → E} {n : ℕ} {table : List E}
    {p : Expr F E × String} :
    lookupExprErrors evalRow n table p = [] ↔
      ∀ inst, inst < n → evalRow inst p.1 ∈ table := by
  unfold lookupExprErrors
  rw [List.filterMap_eq_nil_iff]
  constructor
  · intro h inst hinst
    have h2 := h inst (List.mem_range.mpr hinst)
    by_cases he : evalRow inst p.1 ∈ table
    · exact he
    · rw [if_neg he] at h2
      simp at h2
  · intro h inst hinst
    rw [List.mem_range] at hinst
    rw [if_pos (h inst hinst)]

theorem lkmDiffErrors_mem {rt : ROMType} {csMap assMap : List (ℕ × ℕ)} {k : ℕ}
    (hne : lkmCount csMap k ≠ lkmCount assMap k) :
    MockProverError.LkMultiplicityError (F := F) (E := E) rt k
      ((lkmCount assMap k : ℤ) - (lkmCount csMap k : ℤ)) 0 ∈
      lkmDiffErrors rt csMap assMap := by
  have hmeq : ¬ mapEqB csMap assMap = true := by
    intro h
    exact hne (by unfold lkmCount; rw [mapEqB_true_iff.mp h k])
  unfold lkmDiffErrors
  rw [if_neg hmeq]
  by_cases hkcs : k ∈ csMap.map Prod.fst
  · by_cases hkass : k ∈ assMap.map Prod.fst
    · apply List.mem_append.mpr
      right
      apply List.mem_map.mpr
      exact ⟨k, List.mem_filter.mpr ⟨hkcs, by simp [hkass, hne]⟩, rfl⟩
    · have hass0 : lkmCount assMap k = 0 := by
        unfold lkmCount
        rw [lkmGet_eq_none.mpr hkass]
        rfl
      apply List.mem_append.mpr
      left
      apply List.mem_append.mpr
      right
      apply List.mem_map.mpr
      refine ⟨k, List.mem_filter.mpr ⟨hkcs, by simpa using hkass⟩, ?_⟩
      rw [hass0]
      norm_num
  · have hcs0 : lkmCount csMap k = 0 := by
      unfold lkmCount
      rw [lkmGet_eq_none.mpr hkcs]
      rfl
    have hkass : k ∈ assMap.map Prod.fst := by
      by_contra hno
      have h0 : lkmCount assMap k = 0 := by
        unfold lkmCount
        rw [lkmGet_eq_none.mpr hno]
        rfl
      exact hne (by rw [hcs0, h0])
    apply List.mem_append.mpr
    left
    apply List.mem_append.mpr
    left
    apply List.mem_map.mpr
    refine ⟨k, List.mem_filter.mpr ⟨hkass, by simpa using hkcs⟩, ?_⟩
    rw [hcs0]
    norm_num

theorem flatMap_eq_nil_iff {α β : Type} {l : List α} {f : α → List β} :
    l.flatMap f = [] ↔ ∀ x ∈ l, f x = [] := by
  constructor
  · intro h x hx
    by_contra hne
    obtain ⟨y, hy⟩ := List.exists_mem_of_ne_nil _ hne
    have : y ∈ l.flatMap f := List.mem_flatMap.mpr ⟨x, hx, hy⟩
    rw [h] at this
    exact absurd this (List.not_mem_nil y)
  · intro h
    by_contra hne
    obtain ⟨y, hy⟩ := List.exists_mem_of_ne_nil _ hne
    obtain ⟨x, hx, hyx⟩ := List.mem_flatMap.mp hy
    rw [h x hx] at hyx
    exact absurd hyx (List.not_mem_nil y)

theorem zeroFlat_mem_equal
    {evalRow : ℕ → Expr F E → E} {n : ℕ} {l : List (Expr F E × String)}
    {p : Expr F E × String} (hp : p ∈ l) {inst : ℕ} (hinst : inst < n)
    {left right0 : Expr F E} (hsome : eqCheckOf p = some (left, right0))
    (hne : ¬ evalRow inst left = evalRow inst (negE right0)) :
    MockProverError.AssertEqualError left (negE right0) (evalRow inst left)
      (evalRow inst (negE right0)) p.2 inst ∈
      l.flatMap (zeroExprErrors evalRow n) := by
  apply List.mem_flatMap.mpr
  refine ⟨p, hp, ?_⟩
  simp only [zeroExprErrors, hsome]
  apply List.mem_filterMap.mpr
  exact ⟨inst, List.mem_range.mpr hinst, by rw [if_neg hne]⟩

theorem zeroFlat_mem_zero
    {evalRow : ℕ → Expr F E → E} {n : ℕ} {l : List (Expr F E × String)}
    {p : Expr F E × String} (hp : p ∈ l) {inst : ℕ} (hinst : inst < n)
    (hnone : eqCheckOf p = none) (hne : ¬ evalRow inst p.1 = 0) :
    MockProverError.AssertZeroError p.1 (evalRow inst p.1) p.2 inst ∈
      l.flatMap (zeroExprErrors evalRow n) := by
  apply List.mem_flatMap.mpr
  refine ⟨p, hp, ?_⟩
  simp only [zeroExprErrors, hnone]
  apply List.mem_filterMap.mpr
  exact ⟨inst, List.mem_range.mpr hinst, by rw [if_neg hne]⟩

theorem lookupFlat_mem {evalRow : ℕ → Expr F E → E} {n : ℕ}
    {table : List E} {l : List (Expr F E × String)} {p : Expr F E × String}
    (hp : p ∈ l) {inst : ℕ} (hinst : inst < n)
    (hne : evalRow inst p.1 ∉ table) :
    MockProverError.LookupError p.1 (evalRow inst p.1) p.2 inst ∈
      l.flatMap (lookupExprErrors evalRow n table) := by
  apply List.mem_flatMap.mpr
  refine ⟨p, hp, ?_⟩
  unfold lookupExprErrors
  apply List.mem_filterMap.mpr
  exact ⟨inst, List.mem_range.mpr hinst, by rw [if_neg hne]⟩

/-- **C8.** `MockProver::run` (through `run_maybe_challenge`) returns `Ok`
exactly when no violation exists, and otherwise returns the complete list of
all violations rather than stopping at the first: one `AssertZeroError` per
row where a zero-checked expression is nonzero, one `AssertEqualError` per
mismatching row of a `require_equal` constraint with a `Sum` root (left
child against negated right child), one `LookupError` per row whose
evaluated lookup expression is absent from the loaded tables, and one
`LkMultiplicityError` per key whose count differs in either direction
between the constraint-system-derived and the assignment-recorded
multiplicity maps.  The hypothesis `hpos` records that finalized
multiplicity maps store only positive counts. -/
theorem mock_prover_aggregates (cs : MockCS F E)
    (evalRow : ℕ → Expr F E → E) (n : ℕ) (table : List E) (canon : E → ℕ)
    (pack : ROMType → List ℕ → ℕ) (lkm : Option (ROMType → List (ℕ × ℕ)))
    (hpos : ∀ assMaps, lkm = some assMaps →
      ∀ rt : ROMType, ∀ q ∈ assMaps rt, 0 < q.2) :
    (runMockProver cs evalRow n table canon pack lkm = .ok () ↔
      NoViolation cs evalRow n table canon pack lkm) ∧
    (∀ errs, runMockProver cs evalRow n table canon pack lkm = .error errs →
      (∀ p ∈ cs.assertZeroExpressions, ∀ inst, inst < n →
        (∀ left right0, eqCheckOf p = some (left, right0) →
          ¬ evalRow inst left = evalRow inst (negE right0) →
          MockProverError.AssertEqualError left (negE right0)
            (evalRow inst left) (evalRow inst (negE right0)) p.2 inst ∈ errs) ∧
        (eqCheckOf p = none → ¬ evalRow inst p.1 = 0 →
          MockProverError.AssertZeroError p.1 (evalRow inst p.1) p.2 inst ∈
            errs)) ∧
      (∀ p ∈ cs.lkExpressions, ∀ inst, inst < n →
        evalRow inst p.1 ∉ table →
        MockProverError.LookupError p.1 (evalRow inst p.1) p.2 inst ∈ errs) ∧
      (∀ assMaps, lkm = some assMaps → ∀ rt ∈ romTypeList, ∀ k : ℕ,
        lkmCount (lkmFromCS canon pack evalRow cs.lkItems rt) k ≠
          lkmCount (assMaps rt) k →
        MockProverError.LkMultiplicityError rt k
          ((lkmCount (assMaps rt) k : ℤ) -
            (lkmCount (lkmFromCS canon pack evalRow cs.lkItems rt) k : ℤ)) 0 ∈
          errs)) := by
  cases lkm with
  | none =>
    have hrun : runMockProver cs evalRow n table canon pack none =
        (if (cs.assertZeroExpressions.flatMap (zeroExprErrors evalRow n) ++
            cs.lkExpressions.flatMap (lookupExprErrors evalRow n table) ++
            ([] : List (MockProverError F E))).isEmpty
          then .ok () else .error
            (cs.assertZeroExpressions.flatMap (zeroExprErrors evalRow n) ++
              cs.lkExpressions.flatMap (lookupExprErrors evalRow n table) ++
              [])) := rfl
    have hmain : (cs.assertZeroExpressions.flatMap (zeroExprErrors evalRow n) ++
        cs.lkExpressions.flatMap (lookupExprErrors evalRow n table) ++
        ([] : List (MockProverError F E))) = [] ↔
        NoViolation cs evalRow n table canon pack none := by
      rw [List.append_nil, List.append_eq_nil]
      unfold NoViolation
      rw [flatMap_eq_nil_iff, flatMap_eq_nil_iff]
      constructor
      · rintro ⟨h1, h2⟩
        refine ⟨fun p hp => zeroExprErrors_eq_nil_iff.mp (h1 p hp),
          fun p hp => lookupExprErrors_eq_nil_iff.mp (h2 p hp),
          fun assMaps hsome => by exact absurd hsome (by simp)⟩
      · rintro ⟨h1, h2, _⟩
        exact ⟨fun p hp => zeroExprErrors_eq_nil_iff.mpr (h1 p hp),
          fun p hp => lookupExprErrors_eq_nil_iff.mpr (h2 p hp)⟩
    constructor
    · rw [hrun]
      by_cases hemp : (cs.assertZeroExpressions.flatMap (zeroExprErrors evalRow n) ++
          cs.lkExpressions.flatMap (lookupExprErrors evalRow n table) ++
          ([] : List (MockProverError F E))).isEmpty
      · rw [if_pos hemp]
        simp only [List.isEmpty_iff] at hemp
        exact ⟨fun _ => hmain.mp hemp, fun _ => rfl⟩
      · rw [if_neg hemp]
        simp only [List.isEmpty_iff] at hemp
        exact ⟨fun h => absurd h (by simp), fun h => absurd (hmain.mpr h) hemp⟩
    · intro errs herr
      rw [hrun] at herr
      by_cases hemp : (cs.assertZeroExpressions.flatMap (zeroExprErrors evalRow n) ++
          cs.lkExpressions.flatMap (lookupExprErrors evalRow n table) ++
          ([] : List (MockProverError F E))).isEmpty
      · rw [if_pos hemp] at herr
        exact absurd herr (by simp)
      · rw [if_neg hemp] at herr
        have herrs : errs =
            cs.assertZeroExpressions.flatMap (zeroExprErrors evalRow n) ++
            cs.lkExpressions.flatMap (lookupExprErrors evalRow n table) ++ [] := by
          cases herr
          rfl
        subst herrs
        refine ⟨?_, ?_, ?_⟩
        · intro p hp inst hinst
          constructor
          · intro left right0 hsome hne
            exact List.mem_append.mpr (Or.inl (List.mem_append.mpr
              (Or.inl (zeroFlat_mem_equal hp hinst hsome hne))))
          · intro hnone hne
            exact List.mem_append.mpr (Or.inl (List.mem_append.mpr
              (Or.inl (zeroFlat_mem_zero hp hinst hnone hne))))
        · intro p hp inst hinst hne
          exact List.mem_append.mpr (Or.inl (List.mem_append.mpr
            (Or.inr (lookupFlat_mem hp hinst hne))))
        · intro assMaps hsome
          exact absurd hsome (by simp)
  | some assMaps =>
    have hposa : ∀ rt : ROMType, ∀ q ∈ assMaps rt, 0 < q.2 :=
      hpos assMaps rfl
    have hrun : runMockProver cs evalRow n table canon pack (some assMaps) =
        (if (cs.assertZeroExpressions.flatMap (zeroExprErrors evalRow n) ++
            cs.lkExpressions.flatMap (lookupExprErrors evalRow n table) ++
            romTypeList.flatMap (fun rt => lkmDiffErrors rt
              (lkmFromCS canon pack evalRow cs.lkItems rt) (assMaps rt))).isEmpty
          then .ok () else .error
            (cs.assertZeroExpressions.flatMap (zeroExprErrors evalRow n) ++
              cs.lkExpressions.flatMap (lookupExprErrors evalRow n table) ++
              romTypeList.flatMap (fun rt => lkmDiffErrors rt
                (lkmFromCS canon pack evalRow cs.lkItems rt) (assMaps rt)))) := rfl
    have hmain : (cs.assertZeroExpressions.flatMap (zeroExprErrors evalRow n) ++
        cs.lkExpressions.flatMap (lookupExprErrors evalRow n table) ++
        romTypeList.flatMap (fun rt => lkmDiffErrors rt
          (lkmFromCS canon pack evalRow cs.lkItems rt) (assMaps rt))) = [] ↔
        NoViolation cs evalRow n table canon pack (some assMaps) := by
      rw [List.append_assoc, List.append_eq_nil, List.append_eq_nil]
      unfold NoViolation
      rw [flatMap_eq_nil_iff, flatMap_eq_nil_iff, flatMap_eq_nil_iff]
      constructor
      · rintro ⟨h1, h2, h3⟩
        refine ⟨fun p hp => zeroExprErrors_eq_nil_iff.mp (h1 p hp),
          fun p hp => lookupExprErrors_eq_nil_iff.mp (h2 p hp), ?_⟩
        intro maps hsome rt hrt k
        have hmaps : maps = assMaps := (Option.some.inj hsome).symm
        subst hmaps
        exact (lkmDiffErrors_eq_nil_iff
          (lkmFromCS_pos canon pack evalRow cs.lkItems rt)
          (hposa rt)).mp (h3 rt hrt) k
      · rintro ⟨h1, h2, h3⟩
        refine ⟨fun p hp => zeroExprErrors_eq_nil_iff.mpr (h1 p hp),
          fun p hp => lookupExprErrors_eq_nil_iff.mpr (h2 p hp), ?_⟩
        intro rt hrt
        exact (lkmDiffErrors_eq_nil_iff
          (lkmFromCS_pos canon pack evalRow cs.lkItems rt)
          (hposa rt)).mpr (h3 assMaps rfl rt hrt)
    constructor
    · rw [hrun]
      by_cases hemp : (cs.assertZeroExpressions.flatMap (zeroExprErrors evalRow n) ++
          cs.lkExpressions.flatMap (lookupExprErrors evalRow n table) ++
          romTypeList.flatMap (fun rt => lkmDiffErrors rt
            (lkmFromCS canon pack evalRow cs.lkItems rt) (assMaps rt))).isEmpty
      · rw [if_pos hemp]
        simp only [List.isEmpty_iff] at hemp
        exact ⟨fun _ => hmain.mp hemp, fun _ => rfl⟩
      · rw [if_neg hemp]
        simp only [List.isEmpty_iff] at hemp
        exact ⟨fun h => absurd h (by simp), fun h => absurd (hmain.mpr h) hemp⟩
    · intro errs herr
      rw [hrun] at herr
      by_cases hemp : (cs.assertZeroExpressions.flatMap (zeroExprErrors evalRow n) ++
          cs.lkExpressions.flatMap (lookupExprErrors evalRow n table) ++
          romTypeList.flatMap (fun rt => lkmDiffErrors rt
            (lkmFromCS canon pack evalRow cs.lkItems rt) (assMaps rt))).isEmpty
      · rw [if_pos hemp] at herr
        exact absurd herr (by simp)
      · rw [if_neg hemp] at herr
        have herrs : errs =
            cs.assertZeroExpressions.flatMap (zeroExprErrors evalRow n) ++
            cs.lkExpressions.flatMap (lookupExprErrors evalRow n table) ++
            romTypeList.flatMap (fun rt => lkmDiffErrors rt
              (lkmFromCS canon pack evalRow cs.lkItems rt) (assMaps rt)) := by
          cases herr
          rfl
        subst herrs
        refine ⟨?_, ?_, ?_⟩
        · intro p hp inst hinst
          constructor
          · intro left right0 hsome hne
            exact List.mem_append.mpr (Or.inl (List.mem_append.mpr
              (Or.inl (zeroFlat_mem_equal hp hinst hsome hne))))
          · intro hnone hne
            exact List.mem_append.mpr (Or.inl (List.mem_append.mpr
              (Or.inl (zeroFlat_mem_zero hp hinst hnone hne))))
        · intro p hp inst hinst hne
          exact List.mem_append.mpr (Or.inl (List.mem_append.mpr
            (Or.inr (lookupFlat_mem hp hinst hne))))
        · intro maps hsome rt hrt k hne
          have hmaps : maps = assMaps := (Option.some.inj hsome).symm
          subst hmaps
          exact List.mem_append.mpr (Or.inr (List.mem_flatMap.mpr
            ⟨rt, hrt, lkmDiffErrors_mem hne⟩))

/-- A concrete mock constraint system over `ZMod 97`: one zero assertion,
one lookup expression, one lookup item. -/
def wCS : MockCS (ZMod 97) (ZMod 97) :=
  ⟨[(.WitIn 0, "w0_zero")], [(.Constant 3, "lk_record")], [(.U5, [.Constant 0])]⟩

def wEval : ℕ → Expr (ZMod 97) (ZMod 97) → ZMod 97 := fun _ _ => 0

def wAss : ROMType → List (ℕ × ℕ) := fun _ => [(0, 1)]

theorem mock_prover_aggregates_witness :
    (∀ assMaps, (some wAss : Option (ROMType → List (ℕ × ℕ))) = some assMaps →
      ∀ rt : ROMType, ∀ q ∈ assMaps rt, 0 < q.2) ∧
    (runMockProver wCS wEval 1 [(0 : ZMod 97)] (fun _ => 0) (fun _ _ => 0)
        (some wAss) = .ok () ↔
      NoViolation wCS wEval 1 [(0 : ZMod 97)] (fun _ => 0) (fun _ _ => 0)
        (some wAss)) := by
  have hpos : ∀ assMaps,
      (some wAss : Option (ROMType → List (ℕ × ℕ))) = some assMaps →
      ∀ rt : ROMType, ∀ q ∈ assMaps rt, 0 < q.2 := by
    intro a h rt q hq
    cases h
    simp only [wAss, List.mem_singleton] at hq
    subst hq
    norm_num
  exact ⟨hpos, (mock_prover_aggregates wCS wEval 1 [(0 : ZMod 97)] (fun _ => 0)
    (fun _ _ => 0) (some wAss) hpos).1⟩

end Ceno
